import Mathlib

/-!
# Verification of the `indb` mini-Redis server

A shallow embedding, in Lean 4, of the core of the `indb` repository:

* the RESP frame codec (`src/frame.rs`): `Frame::check`, `Frame::parse` and
  the byte-cursor helpers `peek_u8`, `eat_u8`, `eat_line`, `eat_decimal`,
  `skip`;
* the frame encoder (`src/connection.rs`): `Connection::write_frame`,
  `write_value`, `write_decimal`, plus `Connection::parse_frame` and the
  `read_frame` loop;
* the store (`src/db.rs`): `Db::get`, `Db::set`, `Shared::purge_expired_keys`,
  `State::next_expiration`;
* command parsing and application (`src/cmd/*.rs`, `src/parse.rs`);
* the pub/sub client helper `Subscriber::next_message` (`src/client.rs`) and
  the `Display` implementation for `Frame`.

Modelling conventions:

* Bytes are `Nat` (the encoder only produces values `< 256`); byte buffers
  are `List Nat`.  Rust `String` values are modelled by their UTF-8 byte
  lists, `u64` by `Nat` together with explicit `≤ u64Max` bounds at the
  points where the Rust type system imposes them.
* A Rust `Cursor<&[u8]>` is the pair of the (immutable) buffer and the
  current position; every cursor function takes `(buf, pos)` and returns its
  result together with the new position in the `Except` monad.
* `Frame::check`/`Frame::parse` recurse through `*` array frames; the Lean
  functions take an additional fuel argument that bounds the recursion
  *depth*.  Each recursion level first consumes at least one byte of the
  buffer, so the top-level wrappers `checkTop`/`parseTop` pass
  `buf.length + 1`, which can never be exhausted; `.fuelOut` is therefore
  unreachable from the wrappers and is kept distinct from every error the
  Rust code can produce.
* `Instant` and `Duration` are clock ticks (`Nat`, milliseconds);
  `Instant::now()` is passed explicitly as a `now` argument.
-/

namespace Indb

/-- `u64::MAX`. -/
def u64Max : Nat := 18446744073709551615

/-- A RESP frame (`enum Frame` in `src/frame.rs`).  String payloads
(`Simple`, `Error`) are represented by their UTF-8 bytes; the Rust type
invariant "a `String` is valid UTF-8" becomes an explicit `validUtf8`
hypothesis where a theorem needs it. -/
inductive Frame where
  | simple : List Nat → Frame
  | error : List Nat → Frame
  | integer : Nat → Frame
  | bulk : List Nat → Frame
  | null : Frame
  | array : List Frame → Frame

/-- Outcome of a codec step (`enum Error` in `src/frame.rs`).
`incomplete` is `Error::Incomplete`; `invalid msg` is `Error::Other` holding
the message string; `panicked` marks the `unimplemented!()` arm of
`Frame::parse`; `fuelOut` is the artificial fuel exhaustion of the Lean
embedding (unreachable from the top-level wrappers). -/
inductive FErr where
  | incomplete : FErr
  | invalid : String → FErr
  | panicked : FErr
  | fuelOut : FErr
deriving DecidableEq

/-- `ERROR_INVALID_FRAME` in `src/frame.rs`. -/
def invalidFrameMsg : String := "protocol error: invalid frame format"

/-- The message of the catch-all arm of `Frame::check`
(`format!("protocol error: invalid frame type `{}`", other)`; `{}` on a `u8`
prints the decimal value). -/
def invalidTypeMsg (b : Nat) : String :=
  "protocol error: invalid frame type `" ++ toString b ++ "`"

/-- `peek_u8` in `src/frame.rs`: the byte at the cursor, without advancing. -/
def peek_u8 (buf : List Nat) (pos : Nat) : Except FErr Nat :=
  if pos < buf.length then .ok (buf.getD pos 0) else .error .incomplete

/-- `eat_u8` in `src/frame.rs`: the byte at the cursor, advancing past it. -/
def eat_u8 (buf : List Nat) (pos : Nat) : Except FErr (Nat × Nat) :=
  if pos < buf.length then .ok (buf.getD pos 0, pos + 1) else .error .incomplete

/-- `skip` in `src/frame.rs`: advance `n` bytes if that many remain. -/
def skip (buf : List Nat) (pos n : Nat) : Except FErr Nat :=
  if buf.length - pos < n then .error .incomplete else .ok (pos + n)

/-- The scan loop of `eat_line`: the first index `i` with `pos ≤ i`,
`i < stop` and bytes `\r\n` at `i, i+1`.  The Rust `for i in start..end`
loop becomes a countdown on `stop - i` so the function is structurally
recursive (and hence computable by `decide`). -/
def findCRLFAux (buf : List Nat) (i : Nat) : Nat → Option Nat
  | 0 => none
  | steps + 1 =>
    if buf.getD i 0 = 13 ∧ buf.getD (i + 1) 0 = 10 then some i
    else findCRLFAux buf (i + 1) steps

/-- First CRLF position in `[i, stop)` (see `findCRLFAux`). -/
def findCRLF (buf : List Nat) (stop i : Nat) : Option Nat :=
  findCRLFAux buf i (stop - i)

/-- `eat_line` in `src/frame.rs`: scan `start..(len - 1)` of the whole
buffer for `\r\n`; on a hit at `i`, the line is `buf[start..i]` and the
cursor moves past the `\n`. -/
def eat_line (buf : List Nat) (pos : Nat) : Except FErr (List Nat × Nat) :=
  match findCRLF buf (buf.length - 1) pos with
  | some i => .ok ((buf.drop pos).take (i - pos), i + 2)
  | none => .error .incomplete

/-- ASCII decimal digit. -/
def digit (b : Nat) : Bool := 48 ≤ b && b ≤ 57

/-- The digit loop of `atoi::<u64>` (external `atoi` crate): consume leading
digits with overflow-checked accumulation, stopping at the first non-digit. -/
def runDigits : List Nat → Nat → Option Nat
  | [], acc => some acc
  | b :: bs, acc =>
    if digit b then
      if acc * 10 + (b - 48) ≤ u64Max then runDigits bs (acc * 10 + (b - 48))
      else none
    else some acc

/-- `atoi` after the optional sign: requires at least one digit. -/
def atoiPos (l : List Nat) : Option Nat :=
  match l with
  | [] => none
  | b :: _ => if digit b then runDigits l 0 else none

/-- Models `atoi::atoi::<u64>` from the external `atoi` crate: an optional
ASCII sign, then at least one digit, overflow-checked against `u64::MAX`,
stopping at the first non-digit; for the unsigned target a `-` sign is only
accepted when the value is zero. -/
def atoiU64 (l : List Nat) : Option Nat :=
  match l with
  | [] => none
  | b :: bs =>
    if b = 43 then atoiPos bs
    else if b = 45 then
      match atoiPos bs with
      | some 0 => some 0
      | _ => none
    else atoiPos l

/-- `eat_decimal` in `src/frame.rs`: a full line parsed with `atoi::<u64>`;
`None` becomes the `ERROR_INVALID_FRAME` error. -/
def eat_decimal (buf : List Nat) (pos : Nat) : Except FErr (Nat × Nat) :=
  match eat_line buf pos with
  | .error e => .error e
  | .ok (line, p) =>
    match atoiU64 line with
    | some n => .ok (n, p)
    | none => .error (.invalid invalidFrameMsg)

/-- Run `step` `n` times, threading the cursor position — the body of the
`for _ in 0..len` loop of `Frame::check`. -/
def applyN (step : Nat → Except FErr Nat) : Nat → Nat → Except FErr Nat
  | 0, pos => .ok pos
  | n + 1, pos =>
    match step pos with
    | .error e => .error e
    | .ok p => applyN step n p

/-- `Frame::check` in `src/frame.rs`.  The first argument is the recursion
fuel (see the module docstring); the `*` arm runs the element loop at one
fuel less. -/
def check : Nat → List Nat → Nat → Except FErr Nat
  | 0, _, _ => .error .fuelOut
  | fuel + 1, buf, pos =>
    match eat_u8 buf pos with
    | .error e => .error e
    | .ok (b, p1) =>
      if b = 43 then
        match eat_line buf p1 with
        | .error e => .error e
        | .ok (_, p2) => .ok p2
      else if b = 45 then
        match eat_line buf p1 with
        | .error e => .error e
        | .ok (_, p2) => .ok p2
      else if b = 58 then
        match eat_decimal buf p1 with
        | .error e => .error e
        | .ok (_, p2) => .ok p2
      else if b = 36 then
        match peek_u8 buf p1 with
        | .error e => .error e
        | .ok c =>
          if c = 45 then skip buf p1 4
          else
            match eat_decimal buf p1 with
            | .error e => .error e
            | .ok (len, p2) => skip buf p2 (len + 2)
      else if b = 42 then
        match eat_decimal buf p1 with
        | .error e => .error e
        | .ok (n, p2) => applyN (fun p => check fuel buf p) n p2
      else .error (.invalid (invalidTypeMsg b))

/-- Collect `n` frames, threading the cursor position — the body of the
`for _ in 0..len` loop of `Frame::parse`. -/
def collectN (step : Nat → Except FErr (Frame × Nat)) :
    Nat → Nat → Except FErr (List Frame × Nat)
  | 0, pos => .ok ([], pos)
  | n + 1, pos =>
    match step pos with
    | .error e => .error e
    | .ok (f, p) =>
      match collectN step n p with
      | .error e => .error e
      | .ok (fs, p2) => .ok (f :: fs, p2)

/-- `String::from_utf8` validity: the standard UTF-8 well-formedness check
(used by the `+`/`-` arms of `Frame::parse` and by `Parse::next_string`). -/
def isCont (b : Nat) : Bool := 128 ≤ b && b ≤ 191

/-- UTF-8 validity of a byte list (what `String::from_utf8` accepts). -/
def validUtf8 : List Nat → Bool
  | [] => true
  | b :: rest =>
    if b ≤ 127 then validUtf8 rest
    else if 194 ≤ b && b ≤ 223 then
      match rest with
      | c :: r => isCont c && validUtf8 r
      | [] => false
    else if 224 ≤ b && b ≤ 239 then
      match rest with
      | c1 :: c2 :: r =>
        (if b = 224 then decide (160 ≤ c1 ∧ c1 ≤ 191)
         else if b = 237 then decide (128 ≤ c1 ∧ c1 ≤ 159)
         else isCont c1) && isCont c2 && validUtf8 r
      | _ => false
    else if 240 ≤ b && b ≤ 244 then
      match rest with
      | c1 :: c2 :: c3 :: r =>
        (if b = 240 then decide (144 ≤ c1 ∧ c1 ≤ 191)
         else if b = 244 then decide (128 ≤ c1 ∧ c1 ≤ 143)
         else isCont c1) && isCont c2 && isCont c3 && validUtf8 r
      | _ => false
    else false

/-- `Frame::parse` in `src/frame.rs`, same fuel discipline as `check`.
The catch-all `unimplemented!()` arm becomes the `.panicked` error value. -/
def parse : Nat → List Nat → Nat → Except FErr (Frame × Nat)
  | 0, _, _ => .error .fuelOut
  | fuel + 1, buf, pos =>
    match eat_u8 buf pos with
    | .error e => .error e
    | .ok (b, p1) =>
      if b = 43 then
        match eat_line buf p1 with
        | .error e => .error e
        | .ok (line, p2) =>
          if validUtf8 line then .ok (.simple line, p2)
          else .error (.invalid invalidFrameMsg)
      else if b = 45 then
        match eat_line buf p1 with
        | .error e => .error e
        | .ok (line, p2) =>
          if validUtf8 line then .ok (.error line, p2)
          else .error (.invalid invalidFrameMsg)
      else if b = 58 then
        match eat_decimal buf p1 with
        | .error e => .error e
        | .ok (n, p2) => .ok (.integer n, p2)
      else if b = 36 then
        match peek_u8 buf p1 with
        | .error e => .error e
        | .ok c =>
          if c = 45 then
            match eat_line buf p1 with
            | .error e => .error e
            | .ok (line, p2) =>
              if line = [45, 49] then .ok (.null, p2)
              else .error (.invalid invalidFrameMsg)
          else
            match eat_decimal buf p1 with
            | .error e => .error e
            | .ok (len, p2) =>
              if buf.length - p2 < len + 2 then .error .incomplete
              else .ok (.bulk ((buf.drop p2).take len), p2 + len + 2)
      else if b = 42 then
        match eat_decimal buf p1 with
        | .error e => .error e
        | .ok (n, p2) =>
          match collectN (fun p => parse fuel buf p) n p2 with
          | .error e => .error e
          | .ok (fs, p3) => .ok (.array fs, p3)
      else .error .panicked

/-- `Frame::check` run from position 0 with always-sufficient fuel. -/
def checkTop (buf : List Nat) : Except FErr Nat := check (buf.length + 1) buf 0

/-- `Frame::parse` run from position 0 with always-sufficient fuel. -/
def parseTop (buf : List Nat) : Except FErr (Frame × Nat) :=
  parse (buf.length + 1) buf 0

/-- ASCII decimal rendering of `n`, most significant digit first (what
`write!("{}", val)` produces inside `Connection::write_decimal`).  The fuel
argument makes the recursion structural; `n + 1` steps always suffice. -/
def toDecimalAux : Nat → Nat → List Nat
  | 0, _ => []
  | fuel + 1, n => if n < 10 then [48 + n] else toDecimalAux fuel (n / 10) ++ [48 + n % 10]

/-- ASCII decimal digits of `n`. -/
def toDecimal (n : Nat) : List Nat := toDecimalAux (n + 1) n

/-- `Connection::write_decimal`: the decimal digits then `\r\n`. -/
def write_decimal (n : Nat) : List Nat := toDecimal n ++ [13, 10]

/-- `Connection::write_value` in `src/connection.rs`: the non-array frame
encoder; the `Frame::Array` arm is `unreachable!()`, modelled as `none`. -/
def write_value : Frame → Option (List Nat)
  | .simple s => some (43 :: (s ++ [13, 10]))
  | .error s => some (45 :: (s ++ [13, 10]))
  | .integer n => some (58 :: write_decimal n)
  | .bulk b => some (36 :: (write_decimal b.length ++ b ++ [13, 10]))
  | .null => some [36, 45, 49, 13, 10]
  | .array _ => none

/-- `Connection::write_frame` in `src/connection.rs`: arrays are encoded as
`*<len>\r\n` followed by each entry through `write_value`; everything else
goes through `write_value` directly. -/
def write_frame : Frame → Option (List Nat)
  | .array l =>
    match l.mapM write_value with
    | some es => some (42 :: (write_decimal l.length ++ es.flatten))
    | none => none
  | f => write_value f

/-- A `\r\n` pair sits at position `j` of the buffer. -/
abbrev PairAt (buf : List Nat) (j : Nat) : Prop :=
  buf.getD j 0 = 13 ∧ buf.getD (j + 1) 0 = 10

/-- No `\r\n` substring: the condition under which line scanning inside a
`Simple`/`Error` payload cannot fire early. -/
def crlfFree : List Nat → Bool
  | a :: b :: rest => if a = 13 ∧ b = 10 then false else crlfFree (b :: rest)
  | _ => true

/-! ## Well-formedness of frames

`chkValue`/`chkFrame` collect the conditions under which the *encoding* of a
frame is self-delimiting for `Frame::check`: `Simple`/`Error` payloads
contain no CRLF, and every number fits in `u64` (automatic in Rust, where
`Integer` holds a `u64` and lengths are `usize`).  `wfValue`/`wfFrame` add
that `Simple`/`Error` payloads are valid UTF-8 (automatic for a Rust
`String`), which `Frame::parse` additionally checks. -/

def chkValue : Frame → Bool
  | .simple s => crlfFree s
  | .error s => crlfFree s
  | .integer n => decide (n ≤ u64Max)
  | .bulk b => decide (b.length ≤ u64Max)
  | .null => true
  | .array _ => false

def wfValue : Frame → Bool
  | .simple s => validUtf8 s && crlfFree s
  | .error s => validUtf8 s && crlfFree s
  | .integer n => decide (n ≤ u64Max)
  | .bulk b => decide (b.length ≤ u64Max)
  | .null => true
  | .array _ => false

def chkFrame : Frame → Bool
  | .array l => decide (l.length ≤ u64Max) && l.all chkValue
  | f => chkValue f

def wfFrame : Frame → Bool
  | .array l => decide (l.length ≤ u64Max) && l.all wfValue
  | f => wfValue f

/-! ## The store (`db.rs`)

`Instant` and `Duration` are modelled as `Nat` ticks; `Instant::now()` is
passed in explicitly as a `now` argument.  `HashMap<String, Entry>` becomes
an association list with unique keys (an invariant of every reachable
state), `BTreeMap<(Instant, u64), String>` a list kept strictly sorted by
the lexicographic key order, whose head is the map iterator's first
element. -/

/-- One stored value (`struct Entry` in `db.rs`). -/
structure Entry where
  id : Nat
  data : List Nat
  expires_at : Option Nat
deriving DecidableEq

/-- The state guarded by the mutex (`struct State` in `db.rs`).  The pub/sub
map tracks, per channel, the broadcast sender's active-receiver count. -/
structure State where
  entries : List (List Nat × Entry)
  pub_sub : List (List Nat × Nat)
  expirations : List ((Nat × Nat) × List Nat)
  next_id : Nat
  shutdown : Bool
deriving DecidableEq

/-- `HashMap::get`: the value at the first matching key. -/
def assocGet {α β : Type} [DecidableEq α] : List (α × β) → α → Option β
  | [], _ => none
  | (k2, v) :: rest, k => if k2 = k then some v else assocGet rest k

/-- `HashMap::insert`: replace in place (returning the previous value) or
append a fresh binding. -/
def assocInsert {α β : Type} [DecidableEq α] : List (α × β) → α → β → List (α × β) × Option β
  | [], k, v => ([(k, v)], none)
  | (k2, w) :: rest, k, v =>
    if k2 = k then ((k2, v) :: rest, some w)
    else
      let r := assocInsert rest k v
      ((k2, w) :: r.1, r.2)

/-- `HashMap::remove` (drops the first binding of the key). -/
def assocRemove {α β : Type} [DecidableEq α] : List (α × β) → α → List (α × β)
  | [], _ => []
  | (k2, w) :: rest, k => if k2 = k then rest else (k2, w) :: assocRemove rest k

/-- The `BTreeMap<(Instant, u64), _>` key order: lexicographic on
`(when, id)`. -/
def keyLtb (a b : Nat × Nat) : Bool :=
  a.1 < b.1 || (a.1 = b.1 && a.2 < b.2)

/-- `BTreeMap::insert` on the sorted-list representation. -/
def btreeInsert : List ((Nat × Nat) × List Nat) → Nat × Nat → List Nat → List ((Nat × Nat) × List Nat)
  | [], k, v => [(k, v)]
  | (k2, w) :: rest, k, v =>
    if keyLtb k k2 then (k, v) :: (k2, w) :: rest
    else if k2 = k then (k, v) :: rest
    else (k2, w) :: btreeInsert rest k v

/-- `BTreeMap::remove`. -/
def btreeRemove : List ((Nat × Nat) × List Nat) → Nat × Nat → List ((Nat × Nat) × List Nat)
  | [], _ => []
  | (k2, w) :: rest, k => if k2 = k then rest else (k2, w) :: btreeRemove rest k

/-- `State::next_expiration`: the instant of the first `expirations` row. -/
def State.next_expiration (s : State) : Option Nat :=
  s.expirations.head?.map (fun row => row.1.1)

/-- The state built by `Db::new`. -/
def initState : State :=
  { entries := [], pub_sub := [], expirations := [], next_id := 0,
    shutdown := false }

/-- `Db::get`: the stored bytes for `key`, if any (no mutation). -/
def Db.get (s : State) (key : List Nat) : Option (List Nat) :=
  (assocGet s.entries key).map Entry.data

/-- `Db::set`.  Follows the source order: take a fresh id; if an expiry is
requested compute `when = now + duration`, decide the notify flag against
`next_expiration`, and insert the `(when, id) → key` row; insert the entry
(keeping the previous one); finally remove the previous entry's row, if it
had one.  Returns the new state and the notify flag. -/
def Db.set (s : State) (now : Nat) (key value : List Nat)
    (expire : Option Nat) : State × Bool :=
  let id := s.next_id
  let s1 : State := { s with next_id := s.next_id + 1 }
  let en : (Option Nat × State × Bool) :=
    match expire with
    | none => (none, s1, false)
    | some duration =>
      let when := now + duration
      let notify :=
        match s1.next_expiration with
        | some expiration => decide (when < expiration)
        | none => true
      (some when,
       { s1 with expirations := btreeInsert s1.expirations (when, id) key },
       notify)
  let expires_at := en.1
  let s2 := en.2.1
  let ins := assocInsert s2.entries key
    { id := id, data := value, expires_at := expires_at }
  let s3 : State := { s2 with entries := ins.1 }
  let s4 : State :=
    match ins.2 with
    | some prev =>
      match prev.expires_at with
      | some when => { s3 with expirations := btreeRemove s3.expirations (when, prev.id) }
      | none => s3
    | none => s3
  (s4, en.2.2)

/-- The `while let` loop of `Shared::purge_expired_keys`: walk the sorted
rows; stop at the first future instant (returning it), otherwise remove the
key from `entries` and the row, and continue. -/
def purgeLoop (now : Nat) : List ((Nat × Nat) × List Nat) → List (List Nat × Entry) →
    List ((Nat × Nat) × List Nat) × List (List Nat × Entry) × Option Nat
  | [], entries => ([], entries, none)
  | (k0, key) :: rest, entries =>
    if now < k0.1 then ((k0, key) :: rest, entries, some k0.1)
    else purgeLoop now rest (assocRemove entries key)

/-- `Shared::purge_expired_keys`: no-op under shutdown, else run the purge
loop at `now`.  Returns the new state and the next deadline, if any. -/
def Shared.purge_expired_keys (s : State) (now : Nat) : State × Option Nat :=
  if s.shutdown then (s, none)
  else
    let r := purgeLoop now s.expirations s.entries
    ({ s with expirations := r.1, entries := r.2.1 }, r.2.2)

/-- Modelled from the spec: `publish(channel, message)` looks up the
channel's broadcast sender under the lock; if it is absent or has zero
active subscribers it returns 0, otherwise it sends the message into the
broadcast channel and returns the sender-reported subscriber count.  The
`State` maps are not changed.  (`Db::publish` is called from
`cmd/publish.rs` but its body is missing from `db.rs`.) -/
def Db.publish (s : State) (channel : List Nat) (_message : List Nat) : State × Nat :=
  match assocGet s.pub_sub channel with
  | none => (s, 0)
  | some receivers => (s, receivers)

/-- Modelled from the spec: `subscribe(channel)` returns a fresh receiver
bound to the channel's broadcast sender, creating the sender if necessary;
in the state we track only the per-channel active-receiver count, which the
fresh receiver increments.  (`Db::subscribe` is called from
`cmd/subscribe.rs` but its body is missing from `db.rs`.) -/
def Db.subscribe (s : State) (channel : List Nat) : State :=
  match assocGet s.pub_sub channel with
  | none => { s with pub_sub := (assocInsert s.pub_sub channel 1).1 }
  | some receivers =>
    { s with pub_sub := (assocInsert s.pub_sub channel (receivers + 1)).1 }

/-- A row of `expirations` is consistent with `entries`: its key maps to an
entry carrying exactly this row's id and instant. -/
def rowOkb (entries : List (List Nat × Entry)) (row : (Nat × Nat) × List Nat) : Bool :=
  match assocGet entries row.2 with
  | some e => e.id = row.1.2 && e.expires_at = some row.1.1
  | none => false

/-- An entry is consistent with `expirations`: if it has a deadline, its
`(when, id) → key` row is present. -/
def entryOkb (exps : List ((Nat × Nat) × List Nat)) (ke : List Nat × Entry) : Bool :=
  match ke.2.expires_at with
  | some when => decide (((when, ke.2.id), ke.1) ∈ exps)
  | none => true

/-- The inductive invariant of reachable store states: `expirations` is
strictly sorted, entry keys and ids are pairwise distinct, every row points
back to its entry, every expiring entry has its row, and ids are below
`next_id`. -/
abbrev expRel (a b : (Nat × Nat) × List Nat) : Prop := keyLtb a.1 b.1 = true

abbrev entRel (a b : List Nat × Entry) : Prop := a.1 ≠ b.1 ∧ a.2.id ≠ b.2.id

def StrongInv (s : State) : Prop :=
  List.Pairwise expRel s.expirations ∧
  List.Pairwise entRel s.entries ∧
  (∀ row ∈ s.expirations, rowOkb s.entries row = true) ∧
  (∀ ke ∈ s.entries, entryOkb s.expirations ke = true) ∧
  (∀ ke ∈ s.entries, ke.2.id < s.next_id)

/-- The invariant exactly as the spec states it: every expiring entry has
exactly one `(expires_at, id) → key` row, entries without expiry have no
row, and no row's key is absent from `entries`. -/
def ClaimInv (s : State) : Prop :=
  (∀ ke ∈ s.entries, ∀ when, ke.2.expires_at = some when →
      s.expirations.filter (fun row => decide (row.1 = (when, ke.2.id))) =
        [((when, ke.2.id), ke.1)]) ∧
  (∀ ke ∈ s.entries, ke.2.expires_at = none →
      ∀ row ∈ s.expirations, row.2 ≠ ke.1) ∧
  (∀ row ∈ s.expirations, (assocGet s.entries row.2).isSome = true)

/-- `struct Opts` of `cmd/set.rs`. -/
structure Opts where
  expire : Option Nat
  nx : Bool
  xx : Bool
deriving DecidableEq

/-- `struct Set` of `cmd/set.rs` (named `SetCmd` here to avoid clashing
with the ambient `Set` type). -/
structure SetCmd where
  key : List Nat
  value : List Nat
  options : Opts
deriving DecidableEq

/-- `Set::apply`, with the written response returned instead of sent: if
`nx` is set and the key is present, or `xx` is set and the key is absent,
respond `Null` without touching the store; otherwise run `Db::set` and
respond `Simple("OK")`. -/
def SetCmd.apply (cmd : SetCmd) (s : State) (now : Nat) : State × Frame :=
  if cmd.options.nx && (Db.get s cmd.key).isSome
      || cmd.options.xx && (Db.get s cmd.key).isNone then
    (s, Frame.null)
  else
    ((Db.set s now cmd.key cmd.value cmd.options.expire).1,
     Frame.simple [79, 75])

/-! ## The command-parse helper (`parse.rs`) and command dispatch (`cmd/`)

`Parse` wraps a `vec::IntoIter<Frame>` over an `Array` frame; it is
modelled as the list of remaining parts, each operation returning the value
together with the rest of the list.  Error messages are represented by
structured constructors that carry the formatted-in data. -/

/-- `enum ParseError` of `parse.rs`, together with the `crate::Error`
strings produced in `cmd/set.rs` and `cmd/mod.rs`; each constructor stands
for one distinct message. -/
inductive ParseErr where
  /-- `protocol error: unexpected end of stream` -/
  | endOfStream : ParseErr
  /-- `protocol error: invalid string` -/
  | invalidString : ParseErr
  /-- `protocol error: expected simple frame or bulk frame, got {:?}` -/
  | notStringFrame (f : Frame) : ParseErr
  /-- `protocol error: expected integer frame but got {:?}` -/
  | notIntFrame (f : Frame) : ParseErr
  /-- `protocol error: invalid number` -/
  | invalidNumber : ParseErr
  /-- `protocol error: expected array, got {:?}` -/
  | notArray (f : Frame) : ParseErr
  /-- `protocol error: expected end of frame, but there was more` -/
  | endExpected : ParseErr
  /-- `SET command error: unsupported option {}` -/
  | unsupportedOption (s : List Nat) : ParseErr
  /-- `SET command error: NX and XX cannot be given at the same time` -/
  | nxAndXx : ParseErr

/-- The `Simple`/`Bulk`-to-`String` conversion inside `Parse::next_string`
(`Bulk` must be valid UTF-8). -/
def frameToString : Frame → Except ParseErr (List Nat)
  | .simple s => .ok s
  | .bulk data => if validUtf8 data then .ok data else .error .invalidString
  | f => .error (.notStringFrame f)

/-- `Parse::next_string`: pop the next part and convert it. -/
def next_string : List Frame → Except ParseErr (List Nat × List Frame)
  | [] => .error .endOfStream
  | f :: rest =>
    match frameToString f with
    | .ok s => .ok (s, rest)
    | .error e => .error e

/-- `Parse::next_bytes`. -/
def next_bytes : List Frame → Except ParseErr (List Nat × List Frame)
  | [] => .error .endOfStream
  | .simple s :: rest => .ok (s, rest)
  | .bulk data :: rest => .ok (data, rest)
  | f :: _ => .error (.notStringFrame f)

/-- `Parse::next_int` (`Simple`/`Bulk` go through the `atoi` crate). -/
def next_int : List Frame → Except ParseErr (Nat × List Frame)
  | [] => .error .endOfStream
  | .integer v :: rest => .ok (v, rest)
  | .simple s :: rest =>
    match atoiU64 s with
    | some n => .ok (n, rest)
    | none => .error .invalidNumber
  | .bulk data :: rest =>
    match atoiU64 data with
    | some n => .ok (n, rest)
    | none => .error .invalidNumber
  | f :: _ => .error (.notIntFrame f)

/-- `Parse::finish`: no parts may remain. -/
def finish : List Frame → Except ParseErr Unit
  | [] => .ok ()
  | _ => .error .endExpected

/-- Bytewise ASCII upper-casing.  `str::to_uppercase` is Unicode-aware, but
on the ASCII option tokens it is compared against (`EX`/`PX`/`NX`/`XX`) it
agrees with the bytewise map, and no non-ASCII string uppercases to them. -/
def asciiUpper (s : List Nat) : List Nat :=
  s.map (fun b => if 97 ≤ b ∧ b ≤ 122 then b - 32 else b)

/-- Bytewise ASCII lower-casing (see `asciiUpper` for the Unicode caveat). -/
def asciiLower (s : List Nat) : List Nat :=
  s.map (fun b => if 65 ≤ b ∧ b ≤ 90 then b + 32 else b)

/-- One of the two verbatim-repeated option blocks of `Set::parse_frames`:
read one token; `EX n` (seconds, stored as milliseconds) or `PX n` sets the
expiry, `NX`/`XX` set their flag, an unknown token is an error, and end of
stream leaves everything unchanged. -/
def setOptBlock (parts : List Frame) (expire : Option Nat) (nx xx : Bool) :
    Except ParseErr ((Option Nat × Bool × Bool) × List Frame) :=
  match next_string parts with
  | .ok (s, rest) =>
    if asciiUpper s = [69, 88] then
      match next_int rest with
      | .ok (secs, rest2) => .ok ((some (secs * 1000), nx, xx), rest2)
      | .error e => .error e
    else if asciiUpper s = [80, 88] then
      match next_int rest with
      | .ok (ms, rest2) => .ok ((some ms, nx, xx), rest2)
      | .error e => .error e
    else if asciiUpper s = [78, 88] then .ok ((expire, true, xx), rest)
    else if asciiUpper s = [88, 88] then .ok ((expire, nx, true), rest)
    else .error (.unsupportedOption s)
  | .error .endOfStream => .ok ((expire, nx, xx), parts)
  | .error e => .error e

/-- `Set::parse_frames`: key, value, then exactly two option blocks,
then the mutual-exclusion check on `NX`/`XX`. -/
def SetCmd.parse_frames (parts : List Frame) :
    Except ParseErr (SetCmd × List Frame) :=
  match next_string parts with
  | .error e => .error e
  | .ok (key, p1) =>
    match next_bytes p1 with
    | .error e => .error e
    | .ok (value, p2) =>
      match setOptBlock p2 none false false with
      | .error e => .error e
      | .ok ((expire1, nx1, xx1), p3) =>
        match setOptBlock p3 expire1 nx1 xx1 with
        | .error e => .error e
        | .ok ((expire2, nx2, xx2), p4) =>
          if nx2 && xx2 then .error .nxAndXx
          else .ok (⟨key, value, ⟨expire2, nx2, xx2⟩⟩, p4)

/-- `struct Get` of `cmd/get.rs`. -/
structure GetCmd where
  key : List Nat
deriving DecidableEq

/-- `Get::parse_frames`. -/
def GetCmd.parse_frames (parts : List Frame) :
    Except ParseErr (GetCmd × List Frame) :=
  match next_string parts with
  | .ok (key, rest) => .ok (⟨key⟩, rest)
  | .error e => .error e

/-- `struct Publish` of `cmd/publish.rs`. -/
structure PublishCmd where
  channel : List Nat
  message : List Nat
deriving DecidableEq

/-- `Publish::parse_frames`. -/
def PublishCmd.parse_frames (parts : List Frame) :
    Except ParseErr (PublishCmd × List Frame) :=
  match next_string parts with
  | .error e => .error e
  | .ok (channel, p1) =>
    match next_bytes p1 with
    | .error e => .error e
    | .ok (message, p2) => .ok (⟨channel, message⟩, p2)

/-- The `loop { match parse.next_string() ... }` of `Subscribe::parse_frames`
and `Unsubscribe::parse_frames`: collect strings until end of stream. -/
def collectStrings : List Frame → Except ParseErr (List (List Nat) × List Frame)
  | [] => .ok ([], [])
  | f :: rest =>
    match frameToString f with
    | .error e => .error e
    | .ok s =>
      match collectStrings rest with
      | .ok (ss, r) => .ok (s :: ss, r)
      | .error e => .error e

/-- `struct Subscribe` of `cmd/subscribe.rs`. -/
structure SubscribeCmd where
  channels : List (List Nat)
deriving DecidableEq

/-- `Subscribe::parse_frames`: one required channel, then the rest. -/
def SubscribeCmd.parse_frames (parts : List Frame) :
    Except ParseErr (SubscribeCmd × List Frame) :=
  match next_string parts with
  | .error e => .error e
  | .ok (c1, p1) =>
    match collectStrings p1 with
    | .ok (cs, p2) => .ok (⟨c1 :: cs⟩, p2)
    | .error e => .error e

/-- `struct Unsubscribe` of `cmd/subscribe.rs`. -/
structure UnsubscribeCmd where
  channels : List (List Nat)
deriving DecidableEq

/-- `Unsubscribe::parse_frames`: possibly-empty channel list. -/
def UnsubscribeCmd.parse_frames (parts : List Frame) :
    Except ParseErr (UnsubscribeCmd × List Frame) :=
  match collectStrings parts with
  | .ok (cs, p) => .ok (⟨cs⟩, p)
  | .error e => .error e

/-- Modelled from the spec: unknown command names become `Unknown(name)`
(the file `cmd/unknown.rs` is referenced from `cmd/mod.rs` but missing from
`src/`); the stored name is the already-lowercased command name. -/
structure UnknownCmd where
  command_name : List Nat
deriving DecidableEq

/-- `enum Command` of `cmd/mod.rs`. -/
inductive Command where
  | get (cmd : GetCmd) : Command
  | publish (cmd : PublishCmd) : Command
  | set (cmd : SetCmd) : Command
  | subscribe (cmd : SubscribeCmd) : Command
  | unsubscribe (cmd : UnsubscribeCmd) : Command
  | unknown (cmd : UnknownCmd) : Command

/-- The shared tail of `Command::from_frame`: a successful
command-specific parse is followed by `parse.finish()`. -/
def withFinish {α : Type} (r : Except ParseErr (α × List Frame))
    (mk : α → Command) : Except ParseErr Command :=
  match r with
  | .error e => .error e
  | .ok (cmd, rest) =>
    match finish rest with
    | .ok _ => .ok (mk cmd)
    | .error e => .error e

/-- `Command::from_frame`: the frame must be an array; its first element is
lowercased and dispatched; unknown names return early, skipping
`finish()`. -/
def Command.from_frame (frame : Frame) : Except ParseErr Command :=
  match frame with
  | .array parts =>
    (match next_string parts with
     | .error e => .error e
     | .ok (name, p1) =>
       let lname := asciiLower name
       if lname = [103, 101, 116] then
         withFinish (GetCmd.parse_frames p1) Command.get
       else if lname = [115, 101, 116] then
         withFinish (SetCmd.parse_frames p1) Command.set
       else if lname = [112, 117, 98, 108, 105, 115, 104] then
         withFinish (PublishCmd.parse_frames p1) Command.publish
       else if lname = [115, 117, 98, 115, 99, 114, 105, 98, 101] then
         withFinish (SubscribeCmd.parse_frames p1) Command.subscribe
       else if lname = [117, 110, 115, 117, 98, 115, 99, 114, 105, 98, 101] then
         withFinish (UnsubscribeCmd.parse_frames p1) Command.unsubscribe
       else .ok (.unknown ⟨lname⟩))
  | f => .error (.notArray f)

/-! ## The connection read path (`connection.rs`)

The socket is modelled as a list of byte chunks: each `read_buf` call
appends the next chunk to the read buffer; an empty chunk, or running out
of chunks, is the 0-byte read that signals the peer closed the socket. -/

/-- Errors surfaced by `Connection::read_frame` as `crate::Error`. -/
inductive ConnErr where
  /-- the literal `"connection reset by peer"` error -/
  | reset : ConnErr
  /-- a `frame::Error` bubbled up from `check` or `parse` -/
  | frameErr (e : FErr) : ConnErr
deriving DecidableEq

/-- `Connection::parse_frame`: run `check` from position 0; on success
remember the consumed length, re-run `parse` from 0, and advance the buffer
by the remembered length; `Incomplete` becomes `Ok(None)`; other errors
are returned. -/
def parse_frame (buffer : List Nat) :
    Except ConnErr (Option Frame × List Nat) :=
  match checkTop buffer with
  | .ok len =>
    match parseTop buffer with
    | .ok (frame, _) => .ok (some frame, buffer.drop len)
    | .error e => .error (.frameErr e)
  | .error .incomplete => .ok (none, buffer)
  | .error e => .error (.frameErr e)

/-- `Connection::read_frame`: loop { return a parsed frame if the buffer
holds one; otherwise read; on a 0-byte read return clean EOF if the buffer
is empty and the reset error otherwise }. -/
def read_frame : List Nat → List (List Nat) → Except ConnErr (Option Frame)
  | buffer, chunks =>
    match parse_frame buffer with
    | .error e => .error e
    | .ok (some frame, _) => .ok (some frame)
    | .ok (none, _) =>
      match chunks with
      | [] => if buffer.isEmpty then .ok none else .error .reset
      | c :: rest =>
        if c.isEmpty then
          if buffer.isEmpty then .ok none else .error .reset
        else read_frame (buffer ++ c) rest

/-- `parse_frame` reports an incomplete (but so-far well-formed) buffer. -/
def parseNone (buffer : List Nat) : Bool :=
  match parse_frame buffer with
  | .ok (none, _) => true
  | _ => false

/-- Along a run of `read_frame`, every intermediate buffer held only a
partial frame (so the loop kept reading). -/
def allIncomplete : List Nat → List (List Nat) → Bool
  | buffer, [] => parseNone buffer
  | buffer, c :: rest => parseNone buffer && allIncomplete (buffer ++ c) rest

/-! ## The client Display path (`impl fmt::Display for Frame`, `client.rs`)

`Bytes`' `Debug` impl (used for non-UTF-8 bulk payloads) renders
`b"..."`, escaping `\n`, `\r`, `\t`, `\\`, `\"` and `\0`, printing ASCII
32..126 verbatim and anything else as lowercase `\xhh`. -/

/-- Lowercase hex digit, as produced by `{:02x}`. -/
def hexDigitChar (n : Nat) : Nat := if n < 10 then 48 + n else 87 + n

/-- One byte of the `bytes::Bytes` `Debug` rendering. -/
def escByte (b : Nat) : List Nat :=
  if b = 10 then [92, 110]
  else if b = 13 then [92, 114]
  else if b = 9 then [92, 116]
  else if b = 92 ∨ b = 34 then [92, b]
  else if b = 0 then [92, 48]
  else if 32 ≤ b ∧ b ≤ 126 then [b]
  else [92, 120, hexDigitChar (b / 16), hexDigitChar (b % 16)]

/-- The full `bytes::Bytes` `Debug` rendering: `b"` ... `"`. -/
def debugBytes (bs : List Nat) : List Nat :=
  [98, 34] ++ bs.flatMap escByte ++ [34]

mutual

/-- `impl fmt::Display for Frame`: `Simple` prints its string, `Error`
prefixes `error: `, `Integer` prints its decimal, `Bulk` prints its bytes
when they are UTF-8 and their `Debug` rendering otherwise, `Null` prints
`(nil)`, and the `Array` arm iterates with `enumerate`, printing nothing
for index 0 and a space followed by the element for every later index. -/
def displayF : Frame → List Nat
  | .simple response => response
  | .error msg => [101, 114, 114, 111, 114, 58, 32] ++ msg
  | .integer num => toDecimal num
  | .bulk msg => if validUtf8 msg then msg else debugBytes msg
  | .null => [40, 110, 105, 108, 41]
  | .array parts => displayParts 0 parts

/-- The `enumerate` loop of the `Array` arm of `Display`. -/
def displayParts : Nat → List Frame → List Nat
  | _, [] => []
  | i, part :: rest =>
    (if 0 < i then 32 :: displayF part else []) ++ displayParts (i + 1) rest

end

/-- `Frame::to_error`: the `unexpected frame: {}` message built from the
`Display` rendering. -/
def to_error (f : Frame) : List Nat :=
  [117, 110, 101, 120, 112, 101, 99, 116, 101, 100, 32, 102, 114, 97,
   109, 101, 58, 32] ++ displayF f

/-- `impl PartialEq<&str> for Frame`: `Simple` and `Bulk` compare their
bytes with the literal, every other variant is unequal. -/
def frameEqStr (f : Frame) (s : List Nat) : Bool :=
  match f with
  | .simple x => decide (x = s)
  | .bulk x => decide (x = s)
  | _ => false

/-- `struct Message` of `client.rs`. -/
structure Message where
  channel : List Nat
  content : List Nat
deriving DecidableEq

/-- The frame-shape match of `Subscriber::next_message` (the surrounding
`read_frame` plumbing is handled separately): a three-element array whose
first element equals the string `message` yields
`Message { channel: channel.to_string(), content: content.to_string() }`,
both rendered through `Display`; anything else is the
`unexpected frame` error. -/
def next_message (mframe : Frame) : Except (List Nat) Message :=
  match mframe with
  | .array [message, channel, content] =>
    if frameEqStr message [109, 101, 115, 115, 97, 103, 101] then
      .ok ⟨displayF channel, displayF content⟩
    else .error (to_error (.array [message, channel, content]))
  | f => .error (to_error f)

/-! ## Byte-level lemmas -/

theorem findCRLFAux_none (buf : List Nat) :
    ∀ steps i, (∀ j, i ≤ j → j < i + steps → ¬ PairAt buf j) →
      findCRLFAux buf i steps = none := by
  intro steps
  induction steps with
  | zero => intro i _; rfl
  | succ m ih =>
    intro i h
    rw [findCRLFAux]
    rw [if_neg (h i le_rfl (by omega))]
    exact ih (i + 1) (fun j h1 h2 => h j (by omega) (by omega))

theorem findCRLFAux_found (buf : List Nat) :
    ∀ steps i k, i ≤ k → k < i + steps → PairAt buf k →
      (∀ j, i ≤ j → j < k → ¬ PairAt buf j) →
      findCRLFAux buf i steps = some k := by
  intro steps
  induction steps with
  | zero => intro i k h1 h2; omega
  | succ m ih =>
    intro i k h1 h2 hk hno
    rw [findCRLFAux]
    rcases Nat.eq_or_lt_of_le h1 with heq | hlt
    · subst heq; rw [if_pos hk]
    · rw [if_neg (hno i le_rfl hlt)]
      exact ih (i + 1) k hlt (by omega) hk (fun j ha hb => hno j (by omega) hb)

theorem findCRLF_found (buf : List Nat) (stop i k : Nat) (h1 : i ≤ k)
    (h2 : k < stop) (hk : PairAt buf k)
    (hno : ∀ j, i ≤ j → j < k → ¬ PairAt buf j) :
    findCRLF buf stop i = some k :=
  findCRLFAux_found buf (stop - i) i k h1 (by omega) hk hno

theorem findCRLF_none (buf : List Nat) (stop i : Nat)
    (hno : ∀ j, i ≤ j → j < stop → ¬ PairAt buf j) :
    findCRLF buf stop i = none :=
  findCRLFAux_none buf (stop - i) i (fun j ha hb => hno j ha (by omega))

theorem crlfFree_iff (l : List Nat) :
    crlfFree l = true ↔
      ∀ t, t + 1 < l.length → ¬(l.getD t 0 = 13 ∧ l.getD (t + 1) 0 = 10) := by
  induction l with
  | nil => simp [crlfFree]
  | cons a rest ih =>
    cases rest with
    | nil => simp [crlfFree]
    | cons b r =>
      rw [crlfFree]
      constructor
      · intro h t ht
        by_cases hab : a = 13 ∧ b = 10
        · rw [if_pos hab] at h; exact absurd h (by simp)
        · rw [if_neg hab] at h
          cases t with
          | zero => simpa using hab
          | succ u =>
            have := (ih.mp h) u (by simpa using ht)
            simpa using this
      · intro h
        have hab : ¬(a = 13 ∧ b = 10) := by
          have := h 0 (by simp)
          simpa using this
        rw [if_neg hab]
        refine ih.mpr ?_
        intro t ht
        have := h (t + 1) (by simpa using ht)
        simpa using this

theorem crlfFree_take (l : List Nat) (m : Nat) (h : crlfFree l = true) :
    crlfFree (l.take m) = true := by
  rw [crlfFree_iff] at h ⊢
  intro t ht hpair
  rw [List.length_take] at ht
  have hm : t + 1 < m := by omega
  have hl : t + 1 < l.length := by omega
  have h1 : (l.take m).getD t 0 = l.getD t 0 := by
    simp [List.getD_eq_getElem?_getD, List.getElem?_take, Nat.lt_of_succ_lt hm]
  have h2 : (l.take m).getD (t + 1) 0 = l.getD (t + 1) 0 := by
    simp [List.getD_eq_getElem?_getD, List.getElem?_take, hm]
  rw [h1, h2] at hpair
  exact h t hl hpair

theorem crlfFree_append_13 (s : List Nat) (h : crlfFree s = true) :
    crlfFree (s ++ [13]) = true := by
  rw [crlfFree_iff] at h ⊢
  intro t ht hpair
  simp only [List.length_append, List.length_cons, List.length_nil] at ht
  rcases Nat.lt_or_ge (t + 1) s.length with hlt | hge
  · have h1 : (s ++ [13]).getD t 0 = s.getD t 0 := List.getD_append _ _ _ _ (by omega)
    have h2 : (s ++ [13]).getD (t + 1) 0 = s.getD (t + 1) 0 := List.getD_append _ _ _ _ hlt
    rw [h1, h2] at hpair
    exact h t hlt hpair
  · have hts : t + 1 = s.length := by omega
    have h2 : (s ++ [13]).getD (t + 1) 0 = 13 := by
      rw [hts, List.getD_append_right _ _ _ _ le_rfl]
      simp
    rw [h2] at hpair
    exact absurd hpair.2 (by decide)

theorem getD_lt_mem (l : List Nat) (n d : Nat) (h : n < l.length) : l.getD n d ∈ l := by
  rw [List.getD_eq_getElem l d h]
  exact List.getElem_mem h

theorem crlfFree_of_no13 (l : List Nat) (h : ∀ b ∈ l, b ≠ 13) :
    crlfFree l = true := by
  rw [crlfFree_iff]
  intro t ht hpair
  exact h (l.getD t 0) (getD_lt_mem l t 0 (by omega)) hpair.1

/-! ## `eat_line` / `eat_u8` / `eat_decimal` in context

Every cursor lemma is phrased on a buffer of the shape
`pre ++ payload ++ tail` with the cursor at `pre.length`. -/

theorem eat_u8_ctx (pre : List Nat) (b : Nat) (tail : List Nat) :
    eat_u8 (pre ++ b :: tail) pre.length = .ok (b, pre.length + 1) := by
  unfold eat_u8
  rw [if_pos (by simp)]
  rw [List.getD_append_right _ _ _ _ le_rfl]
  simp

theorem eat_u8_out (buf : List Nat) (pos : Nat) (h : buf.length ≤ pos) :
    eat_u8 buf pos = .error .incomplete := by
  unfold eat_u8
  rw [if_neg (by omega)]

theorem peek_u8_ctx (pre : List Nat) (b : Nat) (tail : List Nat) :
    peek_u8 (pre ++ b :: tail) pre.length = .ok b := by
  unfold peek_u8
  rw [if_pos (by simp)]
  rw [List.getD_append_right _ _ _ _ le_rfl]
  simp

theorem peek_u8_out (buf : List Nat) (pos : Nat) (h : buf.length ≤ pos) :
    peek_u8 buf pos = .error .incomplete := by
  unfold peek_u8
  rw [if_neg (by omega)]

theorem eat_line_ctx (pre s tail : List Nat) (hs : crlfFree s = true) :
    eat_line (pre ++ (s ++ 13 :: 10 :: tail)) pre.length =
      .ok (s, pre.length + s.length + 2) := by
  have hassoc : pre ++ (s ++ 13 :: 10 :: tail) = (pre ++ s) ++ 13 :: 10 :: tail := by
    simp
  have hlen : (pre ++ (s ++ 13 :: 10 :: tail)).length
      = pre.length + s.length + 2 + tail.length := by
    simp; omega
  have hpair : PairAt (pre ++ (s ++ 13 :: 10 :: tail)) (pre.length + s.length) := by
    constructor
    · rw [hassoc]
      rw [show pre.length + s.length = (pre ++ s).length by simp]
      rw [List.getD_append_right _ _ _ _ le_rfl]
      simp
    · rw [hassoc]
      rw [show pre.length + s.length + 1 = (pre ++ s).length + 1 by simp]
      rw [List.getD_append_right _ _ _ _ (by omega)]
      simp
  have hno : ∀ j, pre.length ≤ j → j < pre.length + s.length →
      ¬ PairAt (pre ++ (s ++ 13 :: 10 :: tail)) j := by
    intro j hj1 hj2 hp
    obtain ⟨hp1, hp2⟩ := hp
    set t := j - pre.length with htdef
    have hjt : j = pre.length + t := by omega
    have hts : t < s.length := by omega
    have h1 : (pre ++ (s ++ 13 :: 10 :: tail)).getD j 0 = s.getD t 0 := by
      rw [hjt, List.getD_append_right _ _ _ _ (by omega)]
      rw [Nat.add_sub_cancel_left]
      rw [List.getD_append _ _ _ _ hts]
    have h2 : (pre ++ (s ++ 13 :: 10 :: tail)).getD (j + 1) 0
        = (s ++ [13]).getD (t + 1) 0 := by
      rw [hjt, show pre.length + t + 1 = pre.length + (t + 1) by omega]
      rw [List.getD_append_right _ _ _ _ (by omega)]
      rw [Nat.add_sub_cancel_left]
      rcases Nat.lt_or_ge (t + 1) s.length with hl | hg
      · rw [List.getD_append _ _ _ _ hl, List.getD_append _ _ _ _ (by simpa using hl)]
      · have heq : t + 1 = s.length := by omega
        rw [heq]
        rw [List.getD_append_right _ _ _ _ le_rfl]
        rw [show s.length - s.length = 0 by omega]
        rw [List.getD_append_right s _ _ _ le_rfl]
        simp
    have hfree := (crlfFree_iff (s ++ [13])).mp (crlfFree_append_13 s hs)
    refine hfree t (by simp; omega) ⟨?_, ?_⟩
    · rw [List.getD_append _ _ _ _ hts]
      rw [← h1]; exact hp1
    · rw [← h2]; exact hp2
  unfold eat_line
  rw [findCRLF_found _ _ _ (pre.length + s.length) (by omega) (by omega) hpair hno]
  simp [List.drop_left, Nat.add_sub_cancel_left, List.take_left]

/-- When the buffer ends in a CRLF-free region after the cursor, line
scanning finds nothing and `eat_line` reports `Incomplete`. -/
theorem eat_line_out (pre q : List Nat) (hq : crlfFree q = true) :
    eat_line (pre ++ q) pre.length = .error .incomplete := by
  unfold eat_line
  rw [findCRLF_none]
  intro j hj1 hj2 hpair
  rw [List.length_append] at hj2
  set t := j - pre.length with htdef
  have hjt : j = pre.length + t := by omega
  have ht : t + 1 < q.length := by omega
  have h1 : (pre ++ q).getD j 0 = q.getD t 0 := by
    rw [hjt, List.getD_append_right _ _ _ _ (by omega), Nat.add_sub_cancel_left]
  have h2 : (pre ++ q).getD (j + 1) 0 = q.getD (t + 1) 0 := by
    rw [hjt, show pre.length + t + 1 = pre.length + (t + 1) by omega]
    rw [List.getD_append_right _ _ _ _ (by omega), Nat.add_sub_cancel_left]
  obtain ⟨hp1, hp2⟩ := hpair
  refine (crlfFree_iff q).mp hq t ht ⟨?_, ?_⟩
  · rw [← h1]; exact hp1
  · rw [← h2]; exact hp2

/-! ## Decimal rendering and `atoi` round-trip -/

theorem toDecimalAux_irrel : ∀ f1 f2 n, n < f1 → n < f2 →
    toDecimalAux f1 n = toDecimalAux f2 n := by
  intro f1
  induction f1 with
  | zero => intro f2 n h1 _; omega
  | succ a ih =>
    intro f2 n h1 h2
    cases f2 with
    | zero => omega
    | succ b =>
      rw [toDecimalAux, toDecimalAux]
      by_cases hn : n < 10
      · rw [if_pos hn, if_pos hn]
      · rw [if_neg hn, if_neg hn]
        have hdiv : n / 10 < n := Nat.div_lt_self (by omega) (by omega)
        rw [ih b (n / 10) (by omega) (by omega)]

/-- The defining recurrence of `toDecimal`, fuel eliminated. -/
theorem toDecimal_eq (n : Nat) :
    toDecimal n = if n < 10 then [48 + n] else toDecimal (n / 10) ++ [48 + n % 10] := by
  unfold toDecimal
  rw [toDecimalAux]
  by_cases hn : n < 10
  · rw [if_pos hn, if_pos hn]
  · rw [if_neg hn, if_neg hn]
    have hdiv : n / 10 < n := Nat.div_lt_self (by omega) (by omega)
    rw [toDecimalAux_irrel n (n / 10 + 1) (n / 10) (by omega) (by omega)]

theorem toDecimal_digits (n : Nat) : ∀ b ∈ toDecimal n, digit b = true := by
  induction n using Nat.strong_induction_on with
  | _ n ih =>
    rw [toDecimal_eq]
    by_cases hn : n < 10
    · rw [if_pos hn]
      intro b hb
      simp at hb
      subst hb
      simp [digit]
      omega
    · rw [if_neg hn]
      intro b hb
      rw [List.mem_append] at hb
      rcases hb with hb | hb
      · exact ih (n / 10) (Nat.div_lt_self (by omega) (by omega)) b hb
      · simp at hb
        subst hb
        have := Nat.mod_lt n (show 0 < 10 by omega)
        simp [digit]
        omega

theorem toDecimal_ne_nil (n : Nat) : toDecimal n ≠ [] := by
  rw [toDecimal_eq]
  by_cases hn : n < 10
  · rw [if_pos hn]; simp
  · rw [if_neg hn]; simp

theorem toDecimal_crlfFree (n : Nat) : crlfFree (toDecimal n) = true := by
  refine crlfFree_of_no13 _ (fun b hb => ?_)
  have := toDecimal_digits n b hb
  simp [digit] at this
  omega

theorem runDigits_append (a b : List Nat) (acc : Nat)
    (ha : ∀ x ∈ a, digit x = true) :
    runDigits (a ++ b) acc =
      match runDigits a acc with
      | none => none
      | some v => runDigits b v := by
  induction a generalizing acc with
  | nil => simp [runDigits]
  | cons x xs ih =>
    have hx : digit x = true := ha x (by simp)
    rw [List.cons_append]
    simp only [runDigits]
    rw [if_pos hx, if_pos hx]
    by_cases hov : acc * 10 + (x - 48) ≤ u64Max
    · rw [if_pos hov, if_pos hov]
      exact ih (acc * 10 + (x - 48)) (fun y hy => ha y (List.mem_cons_of_mem x hy))
    · simp [if_neg hov]

theorem runDigits_toDecimal (n : Nat) : ∀ acc,
    acc * 10 ^ (toDecimal n).length + n ≤ u64Max →
    runDigits (toDecimal n) acc = some (acc * 10 ^ (toDecimal n).length + n) := by
  induction n using Nat.strong_induction_on with
  | _ n ih =>
    intro acc hacc
    by_cases hn : n < 10
    · rw [toDecimal_eq, if_pos hn] at hacc ⊢
      simp only [List.length_cons, List.length_nil, pow_one, pow_zero] at hacc ⊢
      simp only [runDigits]
      rw [if_pos (show digit (48 + n) = true by
        simp only [digit, Bool.and_eq_true, decide_eq_true_eq]; omega)]
      rw [show 48 + n - 48 = n by omega]
      rw [if_pos (by omega)]
      simp [pow_succ]
    · rw [toDecimal_eq, if_neg hn] at hacc ⊢
      simp only [List.length_append, List.length_cons, List.length_nil] at hacc ⊢
      have hdiv : n / 10 < n := Nat.div_lt_self (by omega) (by omega)
      have hpow : acc * 10 ^ ((toDecimal (n / 10)).length + 1)
          = acc * 10 ^ (toDecimal (n / 10)).length * 10 := by ring
      rw [hpow] at hacc ⊢
      rw [runDigits_append _ _ _ (toDecimal_digits (n / 10))]
      rw [ih (n / 10) hdiv acc (by omega)]
      simp only [runDigits]
      rw [if_pos (show digit (48 + n % 10) = true by
        have := Nat.mod_lt n (show 0 < 10 by omega)
        simp only [digit, Bool.and_eq_true, decide_eq_true_eq]; omega)]
      rw [show 48 + n % 10 - 48 = n % 10 by omega]
      rw [if_pos (by omega)]
      congr 1
      omega

theorem atoiU64_toDecimal (n : Nat) (hn : n ≤ u64Max) :
    atoiU64 (toDecimal n) = some n := by
  obtain ⟨d, ds, hd⟩ : ∃ d ds, toDecimal n = d :: ds := by
    cases h : toDecimal n with
    | nil => exact absurd h (toDecimal_ne_nil n)
    | cons d ds => exact ⟨d, ds, rfl⟩
  have hdig : digit d = true := toDecimal_digits n d (by rw [hd]; simp)
  have hd48 : 48 ≤ d ∧ d ≤ 57 := by simp [digit] at hdig; omega
  rw [hd, atoiU64]
  rw [if_neg (by omega), if_neg (by omega)]
  rw [atoiPos, if_pos hdig]
  have hrun := runDigits_toDecimal n 0 (by simpa using hn)
  rw [hd] at hrun
  simpa using hrun

/-- `eat_decimal` on the canonical encoding of `n ≤ u64Max`. -/
theorem eat_decimal_ctx (pre tail : List Nat) (n : Nat) (hn : n ≤ u64Max) :
    eat_decimal (pre ++ (toDecimal n ++ 13 :: 10 :: tail)) pre.length =
      .ok (n, pre.length + (toDecimal n).length + 2) := by
  unfold eat_decimal
  rw [eat_line_ctx pre (toDecimal n) tail (toDecimal_crlfFree n)]
  simp [atoiU64_toDecimal n hn]

/-! Variants of the context lemmas taking the buffer decomposition and the
cursor position as equality hypotheses, so they rewrite in place. -/

theorem eat_u8_at (buf pre : List Nat) (b : Nat) (tail : List Nat) (pos : Nat)
    (hbuf : buf = pre ++ b :: tail) (hpos : pos = pre.length) :
    eat_u8 buf pos = .ok (b, pos + 1) := by
  subst hbuf; subst hpos; exact eat_u8_ctx pre b tail

theorem peek_u8_at (buf pre : List Nat) (b : Nat) (tail : List Nat) (pos : Nat)
    (hbuf : buf = pre ++ b :: tail) (hpos : pos = pre.length) :
    peek_u8 buf pos = .ok b := by
  subst hbuf; subst hpos; exact peek_u8_ctx pre b tail

theorem eat_line_at (buf pre s tail : List Nat) (pos : Nat)
    (hbuf : buf = pre ++ (s ++ 13 :: 10 :: tail)) (hpos : pos = pre.length)
    (hs : crlfFree s = true) :
    eat_line buf pos = .ok (s, pos + s.length + 2) := by
  subst hbuf; subst hpos; exact eat_line_ctx pre s tail hs

theorem eat_line_out_at (buf pre q : List Nat) (pos : Nat)
    (hbuf : buf = pre ++ q) (hpos : pos = pre.length)
    (hq : crlfFree q = true) :
    eat_line buf pos = .error .incomplete := by
  subst hbuf; subst hpos; exact eat_line_out pre q hq

theorem eat_decimal_at (buf pre tail : List Nat) (n : Nat) (pos : Nat)
    (hbuf : buf = pre ++ (toDecimal n ++ 13 :: 10 :: tail)) (hpos : pos = pre.length)
    (hn : n ≤ u64Max) :
    eat_decimal buf pos = .ok (n, pos + (toDecimal n).length + 2) := by
  subst hbuf; subst hpos; exact eat_decimal_ctx pre tail n hn

theorem drop_take_at (buf pre mid tail : List Nat) (pos k : Nat)
    (hbuf : buf = pre ++ (mid ++ tail)) (hpos : pos = pre.length)
    (hk : k = mid.length) :
    (buf.drop pos).take k = mid := by
  subst hbuf; subst hpos; subst hk
  rw [List.drop_left, List.take_left]

theorem wfValue_chkValue (f : Frame) (h : wfValue f = true) : chkValue f = true := by
  cases f with
  | simple s => rw [wfValue, Bool.and_eq_true] at h; rw [chkValue]; exact h.2
  | error s => rw [wfValue, Bool.and_eq_true] at h; rw [chkValue]; exact h.2
  | integer n => exact h
  | bulk b => exact h
  | null => exact h
  | array l => exact absurd h (by rw [wfValue]; simp)

/-! ## `Frame::parse` consumes exactly a `write_value` encoding -/

theorem parse_value_at (fuel : Nat) (f : Frame) (e : List Nat)
    (hw : wfValue f = true) (he : write_value f = some e)
    (buf pre rest : List Nat) (pos : Nat)
    (hbuf : buf = pre ++ (e ++ rest)) (hpos : pos = pre.length) :
    parse (fuel + 1) buf pos = .ok (f, pos + e.length) := by
  subst hbuf; subst hpos
  cases f with
  | simple s =>
    rw [wfValue, Bool.and_eq_true] at hw
    rw [write_value] at he
    injection he with he
    subst he
    simp only [List.cons_append, List.append_assoc, List.nil_append]
    rw [parse]
    rw [eat_u8_at _ pre 43 _ _ rfl rfl]
    show (if (43 : Nat) = 43 then _ else _) = _
    rw [if_pos rfl]
    rw [eat_line_at _ (pre ++ [43]) s rest _ (by simp) (by simp) hw.2]
    show (if validUtf8 s = true then _ else _) = _
    rw [if_pos hw.1]
    simp only [Except.ok.injEq, Prod.mk.injEq, List.length_cons, List.length_append,
      List.length_nil, true_and]
    omega
  | error s =>
    rw [wfValue, Bool.and_eq_true] at hw
    rw [write_value] at he
    injection he with he
    subst he
    simp only [List.cons_append, List.append_assoc, List.nil_append]
    rw [parse]
    rw [eat_u8_at _ pre 45 _ _ rfl rfl]
    show (if (45 : Nat) = 43 then _ else if (45 : Nat) = 45 then _ else _) = _
    rw [if_neg (by decide), if_pos rfl]
    rw [eat_line_at _ (pre ++ [45]) s rest _ (by simp) (by simp) hw.2]
    show (if validUtf8 s = true then _ else _) = _
    rw [if_pos hw.1]
    simp only [Except.ok.injEq, Prod.mk.injEq, List.length_cons, List.length_append,
      List.length_nil, true_and]
    omega
  | integer n =>
    rw [wfValue, decide_eq_true_eq] at hw
    rw [write_value] at he
    injection he with he
    subst he
    unfold write_decimal
    simp only [List.cons_append, List.append_assoc, List.nil_append]
    rw [parse]
    rw [eat_u8_at _ pre 58 _ _ rfl rfl]
    show (if (58 : Nat) = 43 then _ else if (58 : Nat) = 45 then _
      else if (58 : Nat) = 58 then _ else _) = _
    rw [if_neg (by decide), if_neg (by decide), if_pos rfl]
    rw [eat_decimal_at _ (pre ++ [58]) rest n _ (by simp) (by simp) hw]
    simp only [Except.ok.injEq, Prod.mk.injEq, List.length_cons, List.length_append,
      List.length_nil, write_decimal, true_and]
    omega
  | bulk b =>
    rw [wfValue, decide_eq_true_eq] at hw
    rw [write_value] at he
    injection he with he
    subst he
    unfold write_decimal
    simp only [List.cons_append, List.append_assoc, List.nil_append]
    rw [parse]
    rw [eat_u8_at _ pre 36 _ _ rfl rfl]
    show (if (36 : Nat) = 43 then _ else if (36 : Nat) = 45 then _
      else if (36 : Nat) = 58 then _ else if (36 : Nat) = 36 then _ else _) = _
    rw [if_neg (by decide), if_neg (by decide), if_neg (by decide), if_pos rfl]
    obtain ⟨d, ds, hd⟩ : ∃ d ds, toDecimal b.length = d :: ds := by
      cases h : toDecimal b.length with
      | nil => exact absurd h (toDecimal_ne_nil _)
      | cons d ds => exact ⟨d, ds, rfl⟩
    have hdig : digit d = true := toDecimal_digits _ d (by rw [hd]; simp)
    have hd4557 : 48 ≤ d ∧ d ≤ 57 := by
      simp only [digit, Bool.and_eq_true, decide_eq_true_eq] at hdig
      exact hdig
    rw [peek_u8_at _ (pre ++ [36]) d (ds ++ 13 :: 10 :: (b ++ 13 :: 10 :: rest)) _
      (by rw [hd]; simp) (by simp)]
    show (if d = 45 then _ else _) = _
    rw [if_neg (by omega)]
    rw [eat_decimal_at _ (pre ++ [36]) (b ++ 13 :: 10 :: rest) b.length _
      (by simp) (by simp) hw]
    show (if ((pre ++ 36 :: (toDecimal b.length ++ 13 :: 10 :: (b ++ 13 :: 10 :: rest))).length
        - (pre.length + 1 + (toDecimal b.length).length + 2) < b.length + 2)
      then _ else _) = _
    rw [if_neg (by
      simp only [List.length_append, List.length_cons]
      omega)]
    rw [drop_take_at _ (pre ++ 36 :: (toDecimal b.length ++ [13, 10])) b
      (13 :: 10 :: rest) _ _ (by simp)
      (by simp only [List.length_append, List.length_cons, List.length_nil]; omega) rfl]
    simp only [Except.ok.injEq, Prod.mk.injEq, List.length_cons, List.length_append,
      List.length_nil, true_and]
    omega
  | null =>
    rw [write_value] at he
    injection he with he
    subst he
    simp only [List.cons_append, List.append_assoc, List.nil_append]
    rw [parse]
    rw [eat_u8_at _ pre 36 _ _ rfl rfl]
    show (if (36 : Nat) = 43 then _ else if (36 : Nat) = 45 then _
      else if (36 : Nat) = 58 then _ else if (36 : Nat) = 36 then _ else _) = _
    rw [if_neg (by decide), if_neg (by decide), if_neg (by decide), if_pos rfl]
    rw [peek_u8_at _ (pre ++ [36]) 45 (49 :: 13 :: 10 :: rest) _ (by simp) (by simp)]
    show (if (45 : Nat) = 45 then _ else _) = _
    rw [if_pos rfl]
    rw [eat_line_at _ (pre ++ [36]) [45, 49] rest _ (by simp) (by simp) (by decide)]
    show (if [45, 49] = [45, 49] then _ else _) = _
    rw [if_pos rfl]
    simp only [Except.ok.injEq, Prod.mk.injEq, List.length_cons, List.length_append,
      List.length_nil, true_and]
  | array l =>
    exact absurd hw (by rw [wfValue]; simp)

/-! ## `Frame::check` consumes exactly a `write_value` encoding -/

theorem check_value_at (fuel : Nat) (f : Frame) (e : List Nat)
    (hw : chkValue f = true) (he : write_value f = some e)
    (buf pre rest : List Nat) (pos : Nat)
    (hbuf : buf = pre ++ (e ++ rest)) (hpos : pos = pre.length) :
    check (fuel + 1) buf pos = .ok (pos + e.length) := by
  subst hbuf; subst hpos
  cases f with
  | simple s =>
    rw [chkValue] at hw
    rw [write_value] at he
    injection he with he
    subst he
    simp only [List.cons_append, List.append_assoc, List.nil_append]
    rw [check]
    rw [eat_u8_at _ pre 43 _ _ rfl rfl]
    show (if (43 : Nat) = 43 then _ else _) = _
    rw [if_pos rfl]
    rw [eat_line_at _ (pre ++ [43]) s rest _ (by simp) (by simp) hw]
    simp only [Except.ok.injEq, List.length_cons, List.length_append, List.length_nil]
    omega
  | error s =>
    rw [chkValue] at hw
    rw [write_value] at he
    injection he with he
    subst he
    simp only [List.cons_append, List.append_assoc, List.nil_append]
    rw [check]
    rw [eat_u8_at _ pre 45 _ _ rfl rfl]
    show (if (45 : Nat) = 43 then _ else if (45 : Nat) = 45 then _ else _) = _
    rw [if_neg (by decide), if_pos rfl]
    rw [eat_line_at _ (pre ++ [45]) s rest _ (by simp) (by simp) hw]
    simp only [Except.ok.injEq, List.length_cons, List.length_append, List.length_nil]
    omega
  | integer n =>
    rw [chkValue, decide_eq_true_eq] at hw
    rw [write_value] at he
    injection he with he
    subst he
    unfold write_decimal
    simp only [List.cons_append, List.append_assoc, List.nil_append]
    rw [check]
    rw [eat_u8_at _ pre 58 _ _ rfl rfl]
    show (if (58 : Nat) = 43 then _ else if (58 : Nat) = 45 then _
      else if (58 : Nat) = 58 then _ else _) = _
    rw [if_neg (by decide), if_neg (by decide), if_pos rfl]
    rw [eat_decimal_at _ (pre ++ [58]) rest n _ (by simp) (by simp) hw]
    simp only [Except.ok.injEq, List.length_cons, List.length_append, List.length_nil]
    omega
  | bulk b =>
    rw [chkValue, decide_eq_true_eq] at hw
    rw [write_value] at he
    injection he with he
    subst he
    unfold write_decimal
    simp only [List.cons_append, List.append_assoc, List.nil_append]
    rw [check]
    rw [eat_u8_at _ pre 36 _ _ rfl rfl]
    show (if (36 : Nat) = 43 then _ else if (36 : Nat) = 45 then _
      else if (36 : Nat) = 58 then _ else if (36 : Nat) = 36 then _ else _) = _
    rw [if_neg (by decide), if_neg (by decide), if_neg (by decide), if_pos rfl]
    obtain ⟨d, ds, hd⟩ : ∃ d ds, toDecimal b.length = d :: ds := by
      cases h : toDecimal b.length with
      | nil => exact absurd h (toDecimal_ne_nil _)
      | cons d ds => exact ⟨d, ds, rfl⟩
    have hdig : digit d = true := toDecimal_digits _ d (by rw [hd]; simp)
    have hd4557 : 48 ≤ d ∧ d ≤ 57 := by
      simp only [digit, Bool.and_eq_true, decide_eq_true_eq] at hdig
      exact hdig
    rw [peek_u8_at _ (pre ++ [36]) d (ds ++ 13 :: 10 :: (b ++ 13 :: 10 :: rest)) _
      (by rw [hd]; simp) (by simp)]
    show (if d = 45 then _ else _) = _
    rw [if_neg (by omega)]
    rw [eat_decimal_at _ (pre ++ [36]) (b ++ 13 :: 10 :: rest) b.length _
      (by simp) (by simp) hw]
    show skip _ _ _ = _
    unfold skip
    rw [if_neg (by
      simp only [List.length_append, List.length_cons]
      omega)]
    simp only [Except.ok.injEq, List.length_cons, List.length_append, List.length_nil]
    omega
  | null =>
    rw [write_value] at he
    injection he with he
    subst he
    simp only [List.cons_append, List.append_assoc, List.nil_append]
    rw [check]
    rw [eat_u8_at _ pre 36 _ _ rfl rfl]
    show (if (36 : Nat) = 43 then _ else if (36 : Nat) = 45 then _
      else if (36 : Nat) = 58 then _ else if (36 : Nat) = 36 then _ else _) = _
    rw [if_neg (by decide), if_neg (by decide), if_neg (by decide), if_pos rfl]
    rw [peek_u8_at _ (pre ++ [36]) 45 (49 :: 13 :: 10 :: rest) _ (by simp) (by simp)]
    show (if (45 : Nat) = 45 then _ else _) = _
    rw [if_pos rfl]
    unfold skip
    rw [if_neg (by
      simp only [List.length_append, List.length_cons]
      omega)]
    simp only [Except.ok.injEq, List.length_cons, List.length_append, List.length_nil]
  | array l =>
    exact absurd hw (by rw [chkValue]; simp)

/-! ## The element loops on a sequence of encoded values -/

theorem write_value_total (f : Frame) (hw : wfValue f = true) :
    ∃ e, write_value f = some e := by
  cases f with
  | simple s => exact ⟨_, rfl⟩
  | error s => exact ⟨_, rfl⟩
  | integer n => exact ⟨_, rfl⟩
  | bulk b => exact ⟨_, rfl⟩
  | null => exact ⟨_, rfl⟩
  | array l => exact absurd hw (by rw [wfValue]; simp)

theorem mapM_write_value_total (l : List Frame) (h : ∀ f ∈ l, wfValue f = true) :
    ∃ es, l.mapM write_value = some es := by
  induction l with
  | nil => exact ⟨[], rfl⟩
  | cons f fs ih =>
    obtain ⟨es, hes⟩ := ih (fun g hg => h g (List.mem_cons_of_mem f hg))
    obtain ⟨e, he⟩ := write_value_total f (h f (List.mem_cons_self f fs))
    refine ⟨e :: es, ?_⟩
    rw [List.mapM_cons, he, hes]
    rfl

theorem collectN_values (m : Nat) (fs : List Frame) :
    ∀ es buf pre rest pos, (∀ f ∈ fs, wfValue f = true) →
      fs.mapM write_value = some es →
      buf = pre ++ (es.flatten ++ rest) → pos = pre.length →
      collectN (fun p => parse (m + 1) buf p) fs.length pos
        = .ok (fs, pos + es.flatten.length) := by
  induction fs with
  | nil =>
    intro es buf pre rest pos hws hes hbuf hpos
    have hes2 : es = [] := by
      simp only [List.mapM_nil, Option.pure_def, Option.some.injEq] at hes
      exact hes.symm
    subst hes2
    simp [collectN]
  | cons f fs ih =>
    intro es buf pre rest pos hws hes hbuf hpos
    cases he : write_value f with
    | none =>
      rw [List.mapM_cons, he] at hes
      simp at hes
    | some e =>
    cases hes2 : fs.mapM write_value with
    | none =>
      rw [List.mapM_cons, he, hes2] at hes
      simp at hes
    | some es2 =>
    rw [List.mapM_cons, he, hes2] at hes
    simp at hes
    subst hes
    simp only [List.length_cons]
    rw [collectN]
    rw [parse_value_at m f e (hws f (List.mem_cons_self f fs)) he buf pre
      (es2.flatten ++ rest) pos (by rw [hbuf]; simp) hpos]
    show (match collectN (fun p => parse (m + 1) buf p) fs.length (pos + e.length) with
      | Except.error e => Except.error e
      | Except.ok (fs2, p2) => Except.ok (f :: fs2, p2)) = _
    rw [ih es2 buf (pre ++ e) rest (pos + e.length)
      (fun g hg => hws g (List.mem_cons_of_mem f hg)) hes2
      (by rw [hbuf]; simp) (by rw [hpos]; simp)]
    simp only [Except.ok.injEq, Prod.mk.injEq, List.flatten_cons, List.length_append,
      true_and]
    omega

theorem applyN_values (m : Nat) (fs : List Frame) :
    ∀ es buf pre rest pos, (∀ f ∈ fs, chkValue f = true) →
      fs.mapM write_value = some es →
      buf = pre ++ (es.flatten ++ rest) → pos = pre.length →
      applyN (fun p => check (m + 1) buf p) fs.length pos
        = .ok (pos + es.flatten.length) := by
  induction fs with
  | nil =>
    intro es buf pre rest pos hws hes hbuf hpos
    have hes2 : es = [] := by
      simp only [List.mapM_nil, Option.pure_def, Option.some.injEq] at hes
      exact hes.symm
    subst hes2
    simp [applyN]
  | cons f fs ih =>
    intro es buf pre rest pos hws hes hbuf hpos
    cases he : write_value f with
    | none =>
      rw [List.mapM_cons, he] at hes
      simp at hes
    | some e =>
    cases hes2 : fs.mapM write_value with
    | none =>
      rw [List.mapM_cons, he, hes2] at hes
      simp at hes
    | some es2 =>
    rw [List.mapM_cons, he, hes2] at hes
    simp at hes
    subst hes
    simp only [List.length_cons]
    rw [applyN]
    rw [check_value_at m f e (hws f (List.mem_cons_self f fs)) he buf pre
      (es2.flatten ++ rest) pos (by rw [hbuf]; simp) hpos]
    show applyN (fun p => check (m + 1) buf p) fs.length (pos + e.length) = _
    rw [ih es2 buf (pre ++ e) rest (pos + e.length)
      (fun g hg => hws g (List.mem_cons_of_mem f hg)) hes2
      (by rw [hbuf]; simp) (by rw [hpos]; simp)]
    simp only [Except.ok.injEq, List.flatten_cons, List.length_append]
    omega

/-! ## Round-trip: `parse` after `write_frame` -/

theorem write_frame_total (f : Frame) (hw : wfFrame f = true) :
    ∃ e, write_frame f = some e := by
  cases f with
  | array l =>
    rw [wfFrame, Bool.and_eq_true, decide_eq_true_eq, List.all_eq_true] at hw
    obtain ⟨es, hes⟩ := mapM_write_value_total l hw.2
    exact ⟨_, by rw [write_frame, hes]⟩
  | simple s => exact ⟨_, rfl⟩
  | error s => exact ⟨_, rfl⟩
  | integer n => exact ⟨_, rfl⟩
  | bulk b => exact ⟨_, rfl⟩
  | null => exact ⟨_, rfl⟩

theorem parseTop_write_frame (f : Frame) (e : List Nat) (hw : wfFrame f = true)
    (he : write_frame f = some e) : parseTop e = .ok (f, e.length) := by
  unfold parseTop
  cases f with
  | array l =>
    rw [wfFrame, Bool.and_eq_true, decide_eq_true_eq, List.all_eq_true] at hw
    cases hes : l.mapM write_value with
    | none =>
      rw [write_frame, hes] at he
      exact absurd he (by simp)
    | some es =>
      rw [write_frame, hes] at he
      injection he with he
      subst he
      unfold write_decimal
      simp only [List.cons_append, List.append_assoc, List.nil_append]
      rw [parse]
      rw [eat_u8_at (42 :: (toDecimal l.length ++ 13 :: 10 :: es.flatten)) [] 42
        (toDecimal l.length ++ 13 :: 10 :: es.flatten) 0 rfl rfl]
      show (if (42 : Nat) = 43 then _ else if (42 : Nat) = 45 then _
        else if (42 : Nat) = 58 then _ else if (42 : Nat) = 36 then _
        else if (42 : Nat) = 42 then _ else _) = _
      rw [if_neg (by decide), if_neg (by decide), if_neg (by decide), if_neg (by decide),
        if_pos rfl]
      rw [eat_decimal_at _ [42] es.flatten l.length _ (by simp) (by simp) hw.1]
      simp only [List.length_cons]
      show (match collectN
          (fun p => parse ((toDecimal l.length ++ 13 :: 10 :: es.flatten).length + 1)
            (42 :: (toDecimal l.length ++ 13 :: 10 :: es.flatten)) p)
          l.length (0 + 1 + (toDecimal l.length).length + 2) with
        | Except.error e => Except.error e
        | Except.ok (fs, p3) => Except.ok (Frame.array fs, p3)) = _
      rw [collectN_values (toDecimal l.length ++ 13 :: 10 :: es.flatten).length l es
        (42 :: (toDecimal l.length ++ 13 :: 10 :: es.flatten))
        (42 :: (toDecimal l.length ++ [13, 10])) []
        (0 + 1 + (toDecimal l.length).length + 2) hw.2 hes (by simp)
        (by simp only [List.length_cons, List.length_append, List.length_nil]; omega)]
      simp only [Except.ok.injEq, Prod.mk.injEq, List.length_cons, List.length_append,
        List.length_nil, true_and]
      omega
  | simple s =>
    have := parse_value_at e.length (.simple s) e hw he e [] [] 0 (by simp) (by simp)
    simpa using this
  | error s =>
    have := parse_value_at e.length (.error s) e hw he e [] [] 0 (by simp) (by simp)
    simpa using this
  | integer n =>
    have := parse_value_at e.length (.integer n) e hw he e [] [] 0 (by simp) (by simp)
    simpa using this
  | bulk b =>
    have := parse_value_at e.length (.bulk b) e hw he e [] [] 0 (by simp) (by simp)
    simpa using this
  | null =>
    have := parse_value_at e.length .null e hw he e [] [] 0 (by simp) (by simp)
    simpa using this

/-- C1: the round-trip claim as stated in the spec is false: for the frame
`Simple("a\r\nb")` (no nested array), `parse(encode(F))` is `Simple("a")`,
not `F` — the embedded CRLF terminates the line scan early. -/
theorem c1_roundtrip_counterexample :
    write_frame (.simple [97, 13, 10, 98]) = some [43, 97, 13, 10, 98, 13, 10] ∧
    parseTop [43, 97, 13, 10, 98, 13, 10] = .ok (.simple [97], 4) ∧
    Frame.simple [97] ≠ Frame.simple [97, 13, 10, 98] := by
  refine ⟨rfl, rfl, ?_⟩
  intro h
  injection h with h
  exact absurd h (by decide)

/-- C1 (amended): for every frame without a nested array whose `Simple`/
`Error` payloads contain no CRLF (and, reflecting the Rust types, whose
string payloads are valid UTF-8 and whose numbers fit in `u64`),
`write_frame` succeeds and `Frame::parse` decodes the encoding back to the
same frame, consuming exactly the encoding. -/
theorem c1_roundtrip (f : Frame) (hw : wfFrame f = true) :
    ∃ e, write_frame f = some e ∧ parseTop e = .ok (f, e.length) := by
  obtain ⟨e, he⟩ := write_frame_total f hw
  exact ⟨e, he, parseTop_write_frame f e hw he⟩

/-- Witness for `c1_roundtrip` at a concrete one-level array frame. -/
theorem c1_roundtrip_witness :
    ∃ e, write_frame (.array [.simple [79, 75], .bulk [104, 105], .integer 12, .null])
        = some e ∧
      parseTop e
        = .ok (.array [.simple [79, 75], .bulk [104, 105], .integer 12, .null], e.length) :=
  c1_roundtrip (.array [.simple [79, 75], .bulk [104, 105], .integer 12, .null]) (by decide)

/-! ## Proper prefixes of an encoding leave `check` incomplete -/

theorem take_into_crlf (s R : List Nat) (m : Nat) (hm : m ≤ s.length + 1) :
    (s ++ 13 :: 10 :: R).take m = (s ++ [13]).take m := by
  have h1 : (s ++ 13 :: 10 :: R).take m = s.take m ++ (13 :: 10 :: R).take (m - s.length) :=
    List.take_append_eq_append_take
  have h2 : (s ++ [13]).take m = s.take m ++ [13].take (m - s.length) :=
    List.take_append_eq_append_take
  rw [h1, h2]
  have hk : m - s.length ≤ 1 := by omega
  rcases Nat.le_one_iff_eq_zero_or_eq_one.mp hk with h | h
  · rw [h]; simp
  · rw [h]; simp

theorem take_append_ge (x y : List Nat) (m : Nat) (hm : x.length ≤ m) :
    (x ++ y).take m = x ++ y.take (m - x.length) := by
  rw [List.take_append_eq_append_take]
  rw [List.take_of_length_le hm]

theorem eat_decimal_incomplete (buf : List Nat) (pos : Nat)
    (h : eat_line buf pos = .error .incomplete) :
    eat_decimal buf pos = .error .incomplete := by
  unfold eat_decimal
  rw [h]

/-- A CRLF-free region `q` with nothing after it is a dead end for
`Frame::check`: the partially received payload line cannot complete. -/
theorem check_value_pref (fuel : Nat) (f : Frame) (e : List Nat)
    (hw : chkValue f = true) (he : write_value f = some e)
    (m : Nat) (hm : m < e.length) (buf pre : List Nat) (pos : Nat)
    (hbuf : buf = pre ++ e.take m) (hpos : pos = pre.length) :
    check (fuel + 1) buf pos = .error .incomplete := by
  subst hbuf; subst hpos
  cases m with
  | zero =>
    rw [List.take_zero, List.append_nil, check,
      eat_u8_out _ _ le_rfl]
  | succ m =>
  cases f with
  | simple s =>
    rw [chkValue] at hw
    rw [write_value] at he
    injection he with he
    subst he
    simp only [List.length_cons, List.length_append, List.length_nil] at hm
    rw [List.take_succ_cons]
    rw [check]
    rw [eat_u8_at _ pre 43 _ _ rfl rfl]
    show (if (43 : Nat) = 43 then _ else _) = _
    rw [if_pos rfl]
    rw [eat_line_out_at _ (pre ++ [43]) ((s ++ [13]).take m) _
      (by rw [show s ++ [13, 10] = s ++ 13 :: 10 :: ([] : List Nat) by simp,
        take_into_crlf s [] m (by omega)]; simp)
      (by simp) (crlfFree_take _ _ (crlfFree_append_13 s hw))]
  | error s =>
    rw [chkValue] at hw
    rw [write_value] at he
    injection he with he
    subst he
    simp only [List.length_cons, List.length_append, List.length_nil] at hm
    rw [List.take_succ_cons]
    rw [check]
    rw [eat_u8_at _ pre 45 _ _ rfl rfl]
    show (if (45 : Nat) = 43 then _ else if (45 : Nat) = 45 then _ else _) = _
    rw [if_neg (by decide), if_pos rfl]
    rw [eat_line_out_at _ (pre ++ [45]) ((s ++ [13]).take m) _
      (by rw [show s ++ [13, 10] = s ++ 13 :: 10 :: ([] : List Nat) by simp,
        take_into_crlf s [] m (by omega)]; simp)
      (by simp) (crlfFree_take _ _ (crlfFree_append_13 s hw))]
  | integer n =>
    rw [write_value] at he
    injection he with he
    subst he
    unfold write_decimal at hm ⊢
    simp only [List.length_cons, List.length_append, List.length_nil] at hm
    rw [List.take_succ_cons]
    rw [check]
    rw [eat_u8_at _ pre 58 _ _ rfl rfl]
    show (if (58 : Nat) = 43 then _ else if (58 : Nat) = 45 then _
      else if (58 : Nat) = 58 then _ else _) = _
    rw [if_neg (by decide), if_neg (by decide), if_pos rfl]
    rw [eat_decimal_incomplete _ _
      (eat_line_out_at _ (pre ++ [58]) ((toDecimal n ++ [13]).take m) _
        (by rw [show toDecimal n ++ [13, 10] = toDecimal n ++ 13 :: 10 :: ([] : List Nat)
            by simp,
          take_into_crlf _ [] m (by omega)]; simp)
        (by simp) (crlfFree_take _ _ (crlfFree_append_13 _ (toDecimal_crlfFree n))))]
  | null =>
    rw [write_value] at he
    injection he with he
    subst he
    simp only [List.length_cons, List.length_nil] at hm
    rw [List.take_succ_cons]
    rw [check]
    rw [eat_u8_at _ pre 36 _ _ rfl rfl]
    show (if (36 : Nat) = 43 then _ else if (36 : Nat) = 45 then _
      else if (36 : Nat) = 58 then _ else if (36 : Nat) = 36 then _ else _) = _
    rw [if_neg (by decide), if_neg (by decide), if_neg (by decide), if_pos rfl]
    cases m with
    | zero =>
      rw [List.take_zero, peek_u8_out _ _ (by simp)]
    | succ m2 =>
      rw [List.take_succ_cons]
      rw [peek_u8_at _ (pre ++ [36]) 45 ([49, 13, 10].take m2) _ (by simp) (by simp)]
      show (if (45 : Nat) = 45 then _ else _) = _
      rw [if_pos rfl]
      unfold skip
      rw [if_pos (by
        simp only [List.length_append, List.length_cons, List.length_take,
          List.length_nil]
        omega)]
  | bulk b =>
    rw [chkValue, decide_eq_true_eq] at hw
    rw [write_value] at he
    injection he with he
    subst he
    unfold write_decimal at hm ⊢
    simp only [List.length_cons, List.length_append, List.length_nil] at hm
    rw [List.take_succ_cons]
    rw [check]
    rw [eat_u8_at _ pre 36 _ _ rfl rfl]
    show (if (36 : Nat) = 43 then _ else if (36 : Nat) = 45 then _
      else if (36 : Nat) = 58 then _ else if (36 : Nat) = 36 then _ else _) = _
    rw [if_neg (by decide), if_neg (by decide), if_neg (by decide), if_pos rfl]
    obtain ⟨d, ds, hd⟩ : ∃ d ds, toDecimal b.length = d :: ds := by
      cases h : toDecimal b.length with
      | nil => exact absurd h (toDecimal_ne_nil _)
      | cons d ds => exact ⟨d, ds, rfl⟩
    have hdig : digit d = true := toDecimal_digits _ d (by rw [hd]; simp)
    have hd4557 : 48 ≤ d ∧ d ≤ 57 := by
      simp only [digit, Bool.and_eq_true, decide_eq_true_eq] at hdig
      exact hdig
    cases m with
    | zero =>
      rw [List.take_zero, peek_u8_out _ _ (by simp)]
    | succ m2 =>
    rcases Nat.lt_or_ge m2 ((toDecimal b.length).length + 1) with hcut | hcut
    · -- the cut is inside the length line
      have htake : ((toDecimal b.length ++ [13, 10]) ++ b ++ [13, 10]).take (m2 + 1)
          = (toDecimal b.length ++ [13]).take (m2 + 1) := by
        rw [show (toDecimal b.length ++ [13, 10]) ++ b ++ [13, 10]
            = toDecimal b.length ++ 13 :: 10 :: (b ++ [13, 10]) by simp]
        exact take_into_crlf _ _ _ (by omega)
      rw [htake]
      have hsplit : (toDecimal b.length ++ [13]).take (m2 + 1)
          = d :: ((ds ++ [13]).take m2) := by
        rw [hd]
        simp [List.take_succ_cons]
      rw [hsplit]
      rw [peek_u8_at _ (pre ++ [36]) d ((ds ++ [13]).take m2) _ (by simp) (by simp)]
      show (if d = 45 then _ else _) = _
      rw [if_neg (by omega)]
      have hfree : crlfFree (d :: ((ds ++ [13]).take m2)) = true := by
        have h2 : d :: ((ds ++ [13]).take m2) = ((d :: ds) ++ [13]).take (m2 + 1) := by
          simp [List.take_succ_cons]
        rw [h2, ← hd]
        exact crlfFree_take _ _ (crlfFree_append_13 _ (toDecimal_crlfFree _))
      rw [eat_decimal_incomplete _ _
        (eat_line_out_at _ (pre ++ [36]) (d :: ((ds ++ [13]).take m2)) _ (by simp)
          (by simp) hfree)]
    · -- the length line is complete; the cut is inside the payload
      have htake : ((toDecimal b.length ++ [13, 10]) ++ b ++ [13, 10]).take (m2 + 1)
          = (toDecimal b.length ++ [13, 10]) ++ (b ++ [13, 10]).take
              (m2 + 1 - ((toDecimal b.length).length + 2)) := by
        rw [List.append_assoc]
        rw [take_append_ge _ _ _ (by
          simp only [List.length_append, List.length_cons, List.length_nil]
          omega)]
        simp only [List.length_append, List.length_cons, List.length_nil]
      rw [htake]
      rw [peek_u8_at _ (pre ++ [36]) d
        (ds ++ 13 :: 10 :: ((b ++ [13, 10]).take (m2 + 1 - ((toDecimal b.length).length + 2))))
        _ (by rw [hd]; simp) (by simp)]
      show (if d = 45 then _ else _) = _
      rw [if_neg (by omega)]
      rw [eat_decimal_at _ (pre ++ [36])
        ((b ++ [13, 10]).take (m2 + 1 - ((toDecimal b.length).length + 2))) b.length _
        (by simp) (by simp) hw]
      show skip _ _ _ = _
      unfold skip
      rw [if_pos (by
        simp only [List.length_append, List.length_cons, List.length_take,
          List.length_nil]
        omega)]
  | array l =>
    exact absurd hw (by rw [chkValue]; simp)

theorem write_value_ne_nil (f : Frame) (e : List Nat) (he : write_value f = some e) :
    e ≠ [] := by
  cases f with
  | simple s => rw [write_value] at he; injection he with he; subst he; simp
  | error s => rw [write_value] at he; injection he with he; subst he; simp
  | integer n => rw [write_value] at he; injection he with he; subst he; simp
  | bulk b => rw [write_value] at he; injection he with he; subst he; simp
  | null => rw [write_value] at he; injection he with he; subst he; simp
  | array l => rw [write_value] at he; exact absurd he (by simp)

theorem mapM_write_value_parts (fs : List Frame) :
    ∀ es, fs.mapM write_value = some es →
      es.length = fs.length ∧ (∀ x ∈ es, x ≠ []) ∧
      ∀ k, k < fs.length →
        (fs.take k).mapM write_value = some (es.take k) ∧
        write_value (fs.getD k .null) = some (es.getD k []) := by
  induction fs with
  | nil =>
    intro es hes
    simp only [List.mapM_nil, Option.pure_def, Option.some.injEq] at hes
    subst hes
    refine ⟨rfl, by simp, ?_⟩
    intro k hk
    simp at hk
  | cons f fs ih =>
    intro es hes
    rw [List.mapM_cons] at hes
    cases he0 : write_value f with
    | none => rw [he0] at hes; simp at hes
    | some e0 =>
    cases hes2 : fs.mapM write_value with
    | none => rw [he0, hes2] at hes; simp at hes
    | some es2 =>
    rw [he0, hes2] at hes
    simp at hes
    subst hes
    obtain ⟨hlen, hne, hk⟩ := ih es2 hes2
    refine ⟨by simp [hlen], ?_, ?_⟩
    · intro x hx
      rcases List.mem_cons.mp hx with hx | hx
      · rw [hx]; exact write_value_ne_nil f e0 he0
      · exact hne x hx
    · intro k hklt
      cases k with
      | zero => simpa using ⟨rfl, he0⟩
      | succ k2 =>
        obtain ⟨h1, h2⟩ := hk k2 (by simpa using hklt)
        refine ⟨?_, by simpa using h2⟩
        rw [List.take_succ_cons, List.mapM_cons, he0, h1]
        rfl

theorem flatten_take_decomp (es : List (List Nat)) :
    ∀ t, (∀ x ∈ es, x ≠ []) → t < es.flatten.length →
      ∃ k t2, k < es.length ∧ t2 < (es.getD k []).length ∧
        es.flatten.take t = (es.take k).flatten ++ (es.getD k []).take t2 := by
  induction es with
  | nil => intro t _ ht; simp at ht
  | cons x xs ih =>
    intro t hne ht
    rcases Nat.lt_or_ge t x.length with h | h
    · refine ⟨0, t, by simp, by simpa using h, ?_⟩
      rw [List.flatten_cons, List.take_append_eq_append_take,
        show t - x.length = 0 by omega]
      simp
    · simp only [List.flatten_cons, List.length_append] at ht
      obtain ⟨k, t2, hk, ht2, heq⟩ := ih (t - x.length)
        (fun y hy => hne y (List.mem_cons_of_mem x hy)) (by omega)
      refine ⟨k + 1, t2, by simpa using hk, by simpa using ht2, ?_⟩
      rw [List.flatten_cons, take_append_ge _ _ _ h, heq]
      simp [List.take_succ_cons, List.flatten_cons]

/-- A run of complete element encodings followed by a proper prefix of the
next element leaves the `check` loop incomplete. -/
theorem applyN_pref (m : Nat) (fs : List Frame) :
    ∀ k es e t buf pre pos, k < fs.length →
      (∀ f ∈ fs, chkValue f = true) →
      (fs.take k).mapM write_value = some es →
      write_value (fs.getD k .null) = some e →
      t < e.length →
      buf = pre ++ (es.flatten ++ e.take t) → pos = pre.length →
      applyN (fun p => check (m + 1) buf p) fs.length pos = .error .incomplete := by
  induction fs with
  | nil => intro k es e t buf pre pos hk; intro _ _ _ _ _ _; simp at hk
  | cons f fs ih =>
    intro k es e t buf pre pos hk hcs hes he ht hbuf hpos
    cases k with
    | zero =>
      simp only [List.take_zero, List.mapM_nil, Option.pure_def, Option.some.injEq] at hes
      subst hes
      simp only [List.length_cons]
      rw [applyN]
      rw [check_value_pref m f e (hcs f (List.mem_cons_self f fs))
        (by simpa using he) t ht buf pre pos (by simpa using hbuf) hpos]
    | succ k2 =>
      rw [List.take_succ_cons, List.mapM_cons] at hes
      cases he0 : write_value f with
      | none => rw [he0] at hes; simp at hes
      | some e0 =>
      cases hes2 : (fs.take k2).mapM write_value with
      | none => rw [he0, hes2] at hes; simp at hes
      | some es2 =>
      rw [he0, hes2] at hes
      simp at hes
      subst hes
      simp only [List.length_cons]
      rw [applyN]
      rw [check_value_at m f e0 (hcs f (List.mem_cons_self f fs)) he0 buf pre
        (es2.flatten ++ e.take t) pos (by rw [hbuf]; simp) hpos]
      show applyN (fun p => check (m + 1) buf p) fs.length (pos + e0.length) = _
      exact ih k2 es2 e t buf (pre ++ e0) (pos + e0.length)
        (by simpa using hk)
        (fun g hg => hcs g (List.mem_cons_of_mem f hg)) hes2 (by simpa using he) ht
        (by rw [hbuf]; simp) (by rw [hpos]; simp)

/-- Every proper prefix of a `write_frame` encoding of a CRLF-free frame
leaves `Frame::check` reporting `Incomplete`. -/
theorem checkTop_prefix (f : Frame) (e : List Nat) (hw : chkFrame f = true)
    (he : write_frame f = some e) (m : Nat) (hm : m < e.length) :
    checkTop (e.take m) = .error .incomplete := by
  unfold checkTop
  have hlen : (e.take m).length = m := by rw [List.length_take]; omega
  rw [hlen]
  cases f with
  | simple s => exact check_value_pref m (.simple s) e hw he m hm _ [] 0 (by simp) rfl
  | error s => exact check_value_pref m (.error s) e hw he m hm _ [] 0 (by simp) rfl
  | integer n => exact check_value_pref m (.integer n) e hw he m hm _ [] 0 (by simp) rfl
  | bulk b => exact check_value_pref m (.bulk b) e hw he m hm _ [] 0 (by simp) rfl
  | null => exact check_value_pref m .null e hw he m hm _ [] 0 (by simp) rfl
  | array l =>
    rw [chkFrame, Bool.and_eq_true, decide_eq_true_eq, List.all_eq_true] at hw
    cases hes : l.mapM write_value with
    | none =>
      rw [write_frame, hes] at he
      exact absurd he (by simp)
    | some es =>
    rw [write_frame, hes] at he
    injection he with he
    subst he
    obtain ⟨helen, hene, hparts⟩ := mapM_write_value_parts l es hes
    simp only [List.length_cons, List.length_append, List.length_nil,
      write_decimal] at hm
    cases m with
    | zero =>
      rw [List.take_zero, check, eat_u8_out _ _ (by simp)]
    | succ m2 =>
      unfold write_decimal
      rw [List.take_succ_cons]
      rw [check]
      have heat : eat_u8 (42 :: (((toDecimal l.length ++ [13, 10]) ++ es.flatten).take m2)) 0
          = .ok (42, 0 + 1) :=
        eat_u8_at _ [] 42 _ 0 (List.nil_append _).symm rfl
      rw [heat]
      show (if (42 : Nat) = 43 then _ else if (42 : Nat) = 45 then _
        else if (42 : Nat) = 58 then _ else if (42 : Nat) = 36 then _
        else if (42 : Nat) = 42 then _ else _) = _
      rw [if_neg (by decide), if_neg (by decide), if_neg (by decide), if_neg (by decide),
        if_pos rfl]
      rcases Nat.lt_or_ge m2 ((toDecimal l.length).length + 2) with hcut | hcut
      · have htake : ((toDecimal l.length ++ [13, 10]) ++ es.flatten).take m2
            = (toDecimal l.length ++ [13]).take m2 := by
          rw [show (toDecimal l.length ++ [13, 10]) ++ es.flatten
              = toDecimal l.length ++ 13 :: 10 :: es.flatten by simp]
          exact take_into_crlf _ _ _ (by omega)
        rw [htake]
        have hline : eat_line (42 :: ((toDecimal l.length ++ [13]).take m2)) (0 + 1)
            = .error .incomplete :=
          eat_line_out_at _ [42] ((toDecimal l.length ++ [13]).take m2) _ (by simp)
            (by simp)
            (crlfFree_take _ _ (crlfFree_append_13 _ (toDecimal_crlfFree _)))
        rw [eat_decimal_incomplete _ _ hline]
      · have ht : m2 - ((toDecimal l.length).length + 2) < es.flatten.length := by
          omega
        have htake : ((toDecimal l.length ++ [13, 10]) ++ es.flatten).take m2
            = (toDecimal l.length ++ [13, 10])
              ++ es.flatten.take (m2 - ((toDecimal l.length).length + 2)) := by
          rw [take_append_ge _ _ _ (by
            simp only [List.length_append, List.length_cons, List.length_nil]
            omega)]
          simp only [List.length_append, List.length_cons, List.length_nil]
        obtain ⟨k, t2, hk, ht2, heq⟩ := flatten_take_decomp es
          (m2 - ((toDecimal l.length).length + 2)) hene ht
        rw [htake, heq]
        have hdec : eat_decimal
            (42 :: (toDecimal l.length ++ [13, 10]
              ++ ((es.take k).flatten ++ (es.getD k []).take t2))) (0 + 1)
            = .ok (l.length, 0 + 1 + (toDecimal l.length).length + 2) :=
          eat_decimal_at _ [42]
            ((es.take k).flatten ++ (es.getD k []).take t2) l.length _
            (by simp) (by simp) hw.1
        rw [hdec]
        show applyN _ _ _ = _
        exact applyN_pref m2 l k (es.take k) (es.getD k []) t2 _
          (42 :: (toDecimal l.length ++ [13, 10])) _ (by omega)
          hw.2 (hparts k (by omega)).1 (hparts k (by omega)).2 ht2
          (by simp)
          (by simp only [List.length_cons, List.length_append, List.length_nil]; omega)

/-- C5: the prefix claim as stated is false: for `F = Simple("a\r\nb")` the
5-byte proper prefix of `encode(F)` already contains a complete (different)
frame, so `check` returns `Ok`, not `Incomplete`. -/
theorem c5_prefix_counterexample :
    write_frame (.simple [97, 13, 10, 98]) = some [43, 97, 13, 10, 98, 13, 10] ∧
    [43, 97, 13, 10, 98, 13, 10].take 5 = [43, 97, 13, 10, 98] ∧
    (5 : Nat) < 7 ∧
    checkTop [43, 97, 13, 10, 98] = .ok 4 :=
  ⟨rfl, rfl, by decide, rfl⟩

/-- C5 (amended): for every encodable frame whose `Simple`/`Error` payloads
contain no CRLF (numbers fitting in `u64` as the Rust types guarantee),
`Frame::check` answers `Incomplete` on every proper byte prefix of
`write_frame`'s output. -/
theorem c5_prefix_incomplete (f : Frame) (e : List Nat) (hw : chkFrame f = true)
    (he : write_frame f = some e) (m : Nat) (hm : m < e.length) :
    checkTop (e.take m) = .error .incomplete :=
  checkTop_prefix f e hw he m hm

/-- Witness for `c5_prefix_incomplete`: a 7-byte prefix of the 16-byte
encoding of `Array[Integer 5, Bulk "hi"]`. -/
theorem c5_prefix_witness :
    checkTop ([42, 50, 13, 10, 58, 53, 13, 10, 36, 50, 13, 10, 104, 105, 13, 10].take 7)
      = .error .incomplete :=
  c5_prefix_incomplete (.array [.integer 5, .bulk [104, 105]])
    [42, 50, 13, 10, 58, 53, 13, 10, 36, 50, 13, 10, 104, 105, 13, 10]
    (by decide) rfl 7 (by decide)

/-- C6: `check` does not report a negative non-`-1` bulk length as
`Invalid`: on the complete input `"$-2\r\n"` it skips four bytes and
returns `Ok` (cursor at 5), contradicting the claim that it returns the
`Invalid` error rather than `Ok`. -/
theorem c6_check_negative_len_counterexample :
    checkTop [36, 45, 50, 13, 10] = .ok 5 := rfl

/-- C6 (amended): after `'$'`, a length line starting with `'-'` is always
treated by `check` as the 4-byte `-1\r\n` form: with at least 4 more bytes
buffered `check` returns `Ok`, with fewer it returns `Incomplete`; the
"length line must be exactly `-1`" validation is performed by `parse`, which
returns the invalid-frame error on `"$-2\r\n"`. -/
theorem c6_check_negative_len (rest : List Nat) :
    (3 ≤ rest.length → checkTop (36 :: 45 :: rest) = .ok 5) ∧
    (rest.length < 3 → checkTop (36 :: 45 :: rest) = .error .incomplete) ∧
    parseTop [36, 45, 50, 13, 10] = .error (.invalid invalidFrameMsg) := by
  refine ⟨?_, ?_, rfl⟩
  · intro h3
    show check (rest.length + 2 + 1) _ _ = _
    rw [check]
    rw [eat_u8_at (36 :: 45 :: rest) [] 36 (45 :: rest) 0 rfl rfl]
    show (if (36 : Nat) = 43 then _ else if (36 : Nat) = 45 then _
      else if (36 : Nat) = 58 then _ else if (36 : Nat) = 36 then _ else _) = _
    rw [if_neg (by decide), if_neg (by decide), if_neg (by decide), if_pos rfl]
    rw [peek_u8_at (36 :: 45 :: rest) [36] 45 rest (0 + 1) rfl rfl]
    show (if (45 : Nat) = 45 then _ else _) = _
    rw [if_pos rfl]
    unfold skip
    rw [if_neg (by simp only [List.length_cons]; omega)]
  · intro h3
    show check (rest.length + 2 + 1) _ _ = _
    rw [check]
    rw [eat_u8_at (36 :: 45 :: rest) [] 36 (45 :: rest) 0 rfl rfl]
    show (if (36 : Nat) = 43 then _ else if (36 : Nat) = 45 then _
      else if (36 : Nat) = 58 then _ else if (36 : Nat) = 36 then _ else _) = _
    rw [if_neg (by decide), if_neg (by decide), if_neg (by decide), if_pos rfl]
    rw [peek_u8_at (36 :: 45 :: rest) [36] 45 rest (0 + 1) rfl rfl]
    show (if (45 : Nat) = 45 then _ else _) = _
    rw [if_pos rfl]
    unfold skip
    rw [if_pos (by simp only [List.length_cons]; omega)]

/-- Witness for `c6_check_negative_len` at the concrete input `"$-2\r\n"`. -/
theorem c6_check_negative_len_witness :
    checkTop [36, 45, 50, 13, 10] = .ok 5 ∧
    parseTop [36, 45, 50, 13, 10] = .error (.invalid invalidFrameMsg) :=
  ⟨(c6_check_negative_len [50, 13, 10]).1 (by decide),
   (c6_check_negative_len []).2.2⟩

/-! ## `check` succeeding means `parse` cannot reach `unimplemented!()` -/

theorem skip_ok (buf : List Nat) (pos n p : Nat) (h : skip buf pos n = .ok p) :
    p = pos + n ∧ ¬(buf.length - pos < n) := by
  unfold skip at h
  by_cases hc : buf.length - pos < n
  · rw [if_pos hc] at h; simp at h
  · rw [if_neg hc] at h
    refine ⟨?_, hc⟩
    have := h
    simp at this
    omega

theorem eat_line_error (buf : List Nat) (pos : Nat) (e : FErr)
    (h : eat_line buf pos = .error e) : e = .incomplete := by
  unfold eat_line at h
  cases hf : findCRLF buf (buf.length - 1) pos with
  | some i => rw [hf] at h; simp at h
  | none => rw [hf] at h; simpa using h.symm

theorem findCRLFAux_some (buf : List Nat) :
    ∀ steps i0 i, findCRLFAux buf i0 steps = some i →
      i0 ≤ i ∧ i < i0 + steps ∧ PairAt buf i := by
  intro steps
  induction steps with
  | zero => intro i0 i h; exact absurd h (by rw [findCRLFAux]; simp)
  | succ st ih =>
    intro i0 i h
    rw [findCRLFAux] at h
    by_cases hp : PairAt buf i0
    · rw [if_pos hp] at h
      have : i0 = i := by simpa using h
      subst this
      exact ⟨le_rfl, by omega, hp⟩
    · rw [if_neg hp] at h
      obtain ⟨h1, h2, h3⟩ := ih (i0 + 1) i h
      exact ⟨by omega, by omega, h3⟩

theorem eat_line_ok (buf : List Nat) (pos : Nat) (line : List Nat) (p2 : Nat)
    (h : eat_line buf pos = .ok (line, p2)) :
    ∃ i, pos ≤ i ∧ i + 1 < buf.length ∧
      line = (buf.drop pos).take (i - pos) ∧ p2 = i + 2 := by
  unfold eat_line at h
  cases hf : findCRLF buf (buf.length - 1) pos with
  | none => rw [hf] at h; simp at h
  | some i =>
    rw [hf] at h
    obtain ⟨h1, h2, _⟩ := findCRLFAux_some buf _ _ _ hf
    simp only [Except.ok.injEq, Prod.mk.injEq] at h
    exact ⟨i, h1, by omega, h.1.symm, h.2.symm⟩

/-- If every `check` success at this fuel is simulated by `parse`, the
element loops simulate as well. -/
theorem loop_sim (fuel : Nat) (buf : List Nat)
    (hS : ∀ pos p, check fuel buf pos = .ok p →
      (∃ fr, parse fuel buf pos = .ok (fr, p)) ∨
      (∃ msg, parse fuel buf pos = .error (.invalid msg)) ∨
      parse fuel buf pos = .error .incomplete) :
    ∀ n pos p, applyN (fun q => check fuel buf q) n pos = .ok p →
      (∃ fs, collectN (fun q => parse fuel buf q) n pos = .ok (fs, p)) ∨
      (∃ msg, collectN (fun q => parse fuel buf q) n pos = .error (.invalid msg)) ∨
      collectN (fun q => parse fuel buf q) n pos = .error .incomplete := by
  intro n
  induction n with
  | zero =>
    intro pos p h
    rw [applyN] at h
    have hp : pos = p := by simpa using h
    subst hp
    exact Or.inl ⟨[], rfl⟩
  | succ n ih =>
    intro pos p h
    rw [applyN] at h
    cases hc : check fuel buf pos with
    | error e => rw [hc] at h; simp at h
    | ok p1 =>
      rw [hc] at h
      have h2 : applyN (fun q => check fuel buf q) n p1 = .ok p := h
      rcases hS pos p1 hc with ⟨fr, hp⟩ | ⟨msg, hp⟩ | hp
      · rcases ih p1 p h2 with ⟨fs, hcoll⟩ | ⟨msg, hcoll⟩ | hcoll
        · refine Or.inl ⟨fr :: fs, ?_⟩
          rw [collectN, hp]
          show (match collectN (fun q => parse fuel buf q) n p1 with
            | Except.error e => Except.error e
            | Except.ok (fs2, p3) => Except.ok (fr :: fs2, p3)) = _
          rw [hcoll]
        · refine Or.inr (Or.inl ⟨msg, ?_⟩)
          rw [collectN, hp]
          show (match collectN (fun q => parse fuel buf q) n p1 with
            | Except.error e => Except.error e
            | Except.ok (fs2, p3) => Except.ok (fr :: fs2, p3)) = _
          rw [hcoll]
        · refine Or.inr (Or.inr ?_)
          rw [collectN, hp]
          show (match collectN (fun q => parse fuel buf q) n p1 with
            | Except.error e => Except.error e
            | Except.ok (fs2, p3) => Except.ok (fr :: fs2, p3)) = _
          rw [hcoll]
      · exact Or.inr (Or.inl ⟨msg, by rw [collectN, hp]⟩)
      · exact Or.inr (Or.inr (by rw [collectN, hp]))

/-- At equal fuel, a `check` success means `parse` returns either the frame
with the same final position, an `Invalid` error, or `Incomplete` — never
the `unimplemented!()` panic and never fuel exhaustion. -/
theorem check_parse_sim : ∀ fuel buf pos p, check fuel buf pos = .ok p →
    (∃ fr, parse fuel buf pos = .ok (fr, p)) ∨
    (∃ msg, parse fuel buf pos = .error (.invalid msg)) ∨
    parse fuel buf pos = .error .incomplete := by
  intro fuel
  induction fuel with
  | zero =>
    intro buf pos p h
    rw [check] at h
    simp at h
  | succ m ih =>
    intro buf pos p h
    cases he : eat_u8 buf pos with
    | error e =>
      rw [check, he] at h
      simp at h
    | ok bp =>
    obtain ⟨b, p1⟩ := bp
    by_cases h43 : b = 43
    · cases hl : eat_line buf p1 with
      | error e =>
        have hc : check (m + 1) buf pos = .error e := by
          rw [check, he]
          show (if b = 43 then _ else _) = _
          rw [if_pos h43, hl]
        rw [hc] at h
        simp at h
      | ok lp =>
        obtain ⟨line, p2⟩ := lp
        have hc : check (m + 1) buf pos = .ok p2 := by
          rw [check, he]
          show (if b = 43 then _ else _) = _
          rw [if_pos h43, hl]
        rw [hc] at h
        have hpp : p2 = p := by simpa using h
        subst hpp
        by_cases hu : validUtf8 line = true
        · refine Or.inl ⟨.simple line, ?_⟩
          rw [parse, he]
          show (if b = 43 then _ else _) = _
          rw [if_pos h43, hl]
          show (if validUtf8 line = true then _ else _) = _
          rw [if_pos hu]
        · refine Or.inr (Or.inl ⟨invalidFrameMsg, ?_⟩)
          rw [parse, he]
          show (if b = 43 then _ else _) = _
          rw [if_pos h43, hl]
          show (if validUtf8 line = true then _ else _) = _
          rw [if_neg hu]
    · by_cases h45 : b = 45
      · cases hl : eat_line buf p1 with
        | error e =>
          have hc : check (m + 1) buf pos = .error e := by
            rw [check, he]
            show (if b = 43 then _ else if b = 45 then _ else _) = _
            rw [if_neg h43, if_pos h45, hl]
          rw [hc] at h
          simp at h
        | ok lp =>
          obtain ⟨line, p2⟩ := lp
          have hc : check (m + 1) buf pos = .ok p2 := by
            rw [check, he]
            show (if b = 43 then _ else if b = 45 then _ else _) = _
            rw [if_neg h43, if_pos h45, hl]
          rw [hc] at h
          have hpp : p2 = p := by simpa using h
          subst hpp
          by_cases hu : validUtf8 line = true
          · refine Or.inl ⟨.error line, ?_⟩
            rw [parse, he]
            show (if b = 43 then _ else if b = 45 then _ else _) = _
            rw [if_neg h43, if_pos h45, hl]
            show (if validUtf8 line = true then _ else _) = _
            rw [if_pos hu]
          · refine Or.inr (Or.inl ⟨invalidFrameMsg, ?_⟩)
            rw [parse, he]
            show (if b = 43 then _ else if b = 45 then _ else _) = _
            rw [if_neg h43, if_pos h45, hl]
            show (if validUtf8 line = true then _ else _) = _
            rw [if_neg hu]
      · by_cases h58 : b = 58
        · cases hd : eat_decimal buf p1 with
          | error e =>
            have hc : check (m + 1) buf pos = .error e := by
              rw [check, he]
              show (if b = 43 then _ else if b = 45 then _ else if b = 58 then _
                else _) = _
              rw [if_neg h43, if_neg h45, if_pos h58, hd]
            rw [hc] at h
            simp at h
          | ok np =>
            obtain ⟨n, p2⟩ := np
            have hc : check (m + 1) buf pos = .ok p2 := by
              rw [check, he]
              show (if b = 43 then _ else if b = 45 then _ else if b = 58 then _
                else _) = _
              rw [if_neg h43, if_neg h45, if_pos h58, hd]
            rw [hc] at h
            have hpp : p2 = p := by simpa using h
            subst hpp
            refine Or.inl ⟨.integer n, ?_⟩
            rw [parse, he]
            show (if b = 43 then _ else if b = 45 then _ else if b = 58 then _
              else _) = _
            rw [if_neg h43, if_neg h45, if_pos h58, hd]
        · by_cases h36 : b = 36
          · cases hpk : peek_u8 buf p1 with
            | error e =>
              have hc : check (m + 1) buf pos = .error e := by
                rw [check, he]
                show (if b = 43 then _ else if b = 45 then _ else if b = 58 then _
                  else if b = 36 then _ else _) = _
                rw [if_neg h43, if_neg h45, if_neg h58, if_pos h36, hpk]
              rw [hc] at h
              simp at h
            | ok c =>
              by_cases hc45 : c = 45
              · cases hs : skip buf p1 4 with
                | error e =>
                  have hc : check (m + 1) buf pos = .error e := by
                    rw [check, he]
                    show (if b = 43 then _ else if b = 45 then _ else if b = 58 then _
                      else if b = 36 then _ else _) = _
                    rw [if_neg h43, if_neg h45, if_neg h58, if_pos h36, hpk]
                    show (if c = 45 then _ else _) = _
                    rw [if_pos hc45, hs]
                  rw [hc] at h
                  simp at h
                | ok p4 =>
                  have hc : check (m + 1) buf pos = .ok p4 := by
                    rw [check, he]
                    show (if b = 43 then _ else if b = 45 then _ else if b = 58 then _
                      else if b = 36 then _ else _) = _
                    rw [if_neg h43, if_neg h45, if_neg h58, if_pos h36, hpk]
                    show (if c = 45 then _ else _) = _
                    rw [if_pos hc45, hs]
                  rw [hc] at h
                  have hpp : p4 = p := by simpa using h
                  subst hpp
                  obtain ⟨hp4, _⟩ := skip_ok buf p1 4 p4 hs
                  cases hl : eat_line buf p1 with
                  | error e =>
                    have hei : e = .incomplete := eat_line_error buf p1 e hl
                    subst hei
                    refine Or.inr (Or.inr ?_)
                    rw [parse, he]
                    show (if b = 43 then _ else if b = 45 then _ else if b = 58 then _
                      else if b = 36 then _ else _) = _
                    rw [if_neg h43, if_neg h45, if_neg h58, if_pos h36, hpk]
                    show (if c = 45 then _ else _) = _
                    rw [if_pos hc45, hl]
                  | ok lp =>
                    obtain ⟨line, p2⟩ := lp
                    by_cases hline : line = [45, 49]
                    · have hp2 : p2 = p4 := by
                        obtain ⟨i, hi1, hi2, hi3, hi4⟩ := eat_line_ok buf p1 line p2 hl
                        rw [hline] at hi3
                        have hlen2 := congrArg List.length hi3
                        rw [List.length_take, List.length_drop] at hlen2
                        simp only [List.length_cons, List.length_nil] at hlen2
                        omega
                      subst hp2
                      refine Or.inl ⟨.null, ?_⟩
                      rw [parse, he]
                      show (if b = 43 then _ else if b = 45 then _ else if b = 58 then _
                        else if b = 36 then _ else _) = _
                      rw [if_neg h43, if_neg h45, if_neg h58, if_pos h36, hpk]
                      show (if c = 45 then _ else _) = _
                      rw [if_pos hc45, hl]
                      show (if line = [45, 49] then _ else _) = _
                      rw [if_pos hline]
                    · refine Or.inr (Or.inl ⟨invalidFrameMsg, ?_⟩)
                      rw [parse, he]
                      show (if b = 43 then _ else if b = 45 then _ else if b = 58 then _
                        else if b = 36 then _ else _) = _
                      rw [if_neg h43, if_neg h45, if_neg h58, if_pos h36, hpk]
                      show (if c = 45 then _ else _) = _
                      rw [if_pos hc45, hl]
                      show (if line = [45, 49] then _ else _) = _
                      rw [if_neg hline]
              · cases hd : eat_decimal buf p1 with
                | error e =>
                  have hc : check (m + 1) buf pos = .error e := by
                    rw [check, he]
                    show (if b = 43 then _ else if b = 45 then _ else if b = 58 then _
                      else if b = 36 then _ else _) = _
                    rw [if_neg h43, if_neg h45, if_neg h58, if_pos h36, hpk]
                    show (if c = 45 then _ else _) = _
                    rw [if_neg hc45, hd]
                  rw [hc] at h
                  simp at h
                | ok np =>
                  obtain ⟨len, p2⟩ := np
                  cases hs : skip buf p2 (len + 2) with
                  | error e =>
                    have hc : check (m + 1) buf pos = .error e := by
                      rw [check, he]
                      show (if b = 43 then _ else if b = 45 then _ else if b = 58 then _
                        else if b = 36 then _ else _) = _
                      rw [if_neg h43, if_neg h45, if_neg h58, if_pos h36, hpk]
                      show (if c = 45 then _ else _) = _
                      rw [if_neg hc45, hd]
                      show skip _ _ _ = _
                      rw [hs]
                    rw [hc] at h
                    simp at h
                  | ok ps =>
                    have hc : check (m + 1) buf pos = .ok ps := by
                      rw [check, he]
                      show (if b = 43 then _ else if b = 45 then _ else if b = 58 then _
                        else if b = 36 then _ else _) = _
                      rw [if_neg h43, if_neg h45, if_neg h58, if_pos h36, hpk]
                      show (if c = 45 then _ else _) = _
                      rw [if_neg hc45, hd]
                      show skip _ _ _ = _
                      rw [hs]
                    rw [hc] at h
                    have hpp : ps = p := by simpa using h
                    subst hpp
                    obtain ⟨hps, hrem⟩ := skip_ok buf p2 (len + 2) ps hs
                    refine Or.inl ⟨.bulk ((buf.drop p2).take len), ?_⟩
                    rw [parse, he]
                    show (if b = 43 then _ else if b = 45 then _ else if b = 58 then _
                      else if b = 36 then _ else _) = _
                    rw [if_neg h43, if_neg h45, if_neg h58, if_pos h36, hpk]
                    show (if c = 45 then _ else _) = _
                    rw [if_neg hc45, hd]
                    show (if buf.length - p2 < len + 2 then _ else _) = _
                    rw [if_neg hrem]
                    rw [hps]
                    have : p2 + (len + 2) = p2 + len + 2 := by omega
                    rw [this]
          · by_cases h42 : b = 42
            · cases hd : eat_decimal buf p1 with
              | error e =>
                have hc : check (m + 1) buf pos = .error e := by
                  rw [check, he]
                  show (if b = 43 then _ else if b = 45 then _ else if b = 58 then _
                    else if b = 36 then _ else if b = 42 then _ else _) = _
                  rw [if_neg h43, if_neg h45, if_neg h58, if_neg h36, if_pos h42, hd]
                rw [hc] at h
                simp at h
              | ok np =>
                obtain ⟨n, p2⟩ := np
                have hc : check (m + 1) buf pos
                    = applyN (fun q => check m buf q) n p2 := by
                  rw [check, he]
                  show (if b = 43 then _ else if b = 45 then _ else if b = 58 then _
                    else if b = 36 then _ else if b = 42 then _ else _) = _
                  rw [if_neg h43, if_neg h45, if_neg h58, if_neg h36, if_pos h42, hd]
                rw [hc] at h
                rcases loop_sim m buf (fun q r hq => ih buf q r hq) n p2 p h with
                  ⟨fs, hcoll⟩ | ⟨msg, hcoll⟩ | hcoll
                · refine Or.inl ⟨.array fs, ?_⟩
                  rw [parse, he]
                  show (if b = 43 then _ else if b = 45 then _ else if b = 58 then _
                    else if b = 36 then _ else if b = 42 then _ else _) = _
                  rw [if_neg h43, if_neg h45, if_neg h58, if_neg h36, if_pos h42, hd]
                  show (match collectN (fun q => parse m buf q) n p2 with
                    | Except.error e => Except.error e
                    | Except.ok (fs, p3) => Except.ok (Frame.array fs, p3)) = _
                  rw [hcoll]
                · refine Or.inr (Or.inl ⟨msg, ?_⟩)
                  rw [parse, he]
                  show (if b = 43 then _ else if b = 45 then _ else if b = 58 then _
                    else if b = 36 then _ else if b = 42 then _ else _) = _
                  rw [if_neg h43, if_neg h45, if_neg h58, if_neg h36, if_pos h42, hd]
                  show (match collectN (fun q => parse m buf q) n p2 with
                    | Except.error e => Except.error e
                    | Except.ok (fs, p3) => Except.ok (Frame.array fs, p3)) = _
                  rw [hcoll]
                · refine Or.inr (Or.inr ?_)
                  rw [parse, he]
                  show (if b = 43 then _ else if b = 45 then _ else if b = 58 then _
                    else if b = 36 then _ else if b = 42 then _ else _) = _
                  rw [if_neg h43, if_neg h45, if_neg h58, if_neg h36, if_pos h42, hd]
                  show (match collectN (fun q => parse m buf q) n p2 with
                    | Except.error e => Except.error e
                    | Except.ok (fs, p3) => Except.ok (Frame.array fs, p3)) = _
                  rw [hcoll]
            · have hc : check (m + 1) buf pos = .error (.invalid (invalidTypeMsg b)) := by
                rw [check, he]
                show (if b = 43 then _ else if b = 45 then _ else if b = 58 then _
                  else if b = 36 then _ else if b = 42 then _ else _) = _
                rw [if_neg h43, if_neg h45, if_neg h58, if_neg h36, if_neg h42]
              rw [hc] at h
              simp at h

/-- C9: if `Frame::check` accepts a byte buffer, `Frame::parse` on the same
buffer never reaches the `unimplemented!()` catch-all (modelled as the
`panicked` outcome), at the top level and inside every array recursion: it
returns either a frame consuming exactly the bytes `check` consumed, the
`protocol error: invalid frame format` error, or `Incomplete`. -/
theorem c9_check_ok_no_panic (buf : List Nat) (p : Nat)
    (h : checkTop buf = .ok p) :
    ((∃ fr, parseTop buf = .ok (fr, p)) ∨
     (∃ msg, parseTop buf = .error (.invalid msg)) ∨
     parseTop buf = .error .incomplete) ∧
    parseTop buf ≠ .error .panicked := by
  have hsim := check_parse_sim (buf.length + 1) buf 0 p h
  rw [show parseTop buf = parse (buf.length + 1) buf 0 from rfl]
  refine ⟨hsim, ?_⟩
  intro hcon
  rcases hsim with ⟨fr, hf⟩ | ⟨msg, hf⟩ | hf <;> rw [hf] at hcon <;> simp at hcon

/-- Witness for C9: the complete frame bytes of `"+OK\r\n"` pass `check`
(consuming 5 bytes) and `parse` returns a frame rather than panicking. -/
theorem c9_check_ok_no_panic_witness :
    checkTop [43, 79, 75, 13, 10] = .ok 5 ∧
    (((∃ fr, parseTop [43, 79, 75, 13, 10] = .ok (fr, 5)) ∨
      (∃ msg, parseTop [43, 79, 75, 13, 10] = .error (.invalid msg)) ∨
      parseTop [43, 79, 75, 13, 10] = .error .incomplete) ∧
     parseTop [43, 79, 75, 13, 10] ≠ .error .panicked) :=
  ⟨rfl, c9_check_ok_no_panic [43, 79, 75, 13, 10] 5 rfl⟩

/-! ## Store helper lemmas: the sorted map and the association list -/

theorem keyLtb_iff (a b : Nat × Nat) :
    keyLtb a b = true ↔ a.1 < b.1 ∨ (a.1 = b.1 ∧ a.2 < b.2) := by
  obtain ⟨a1, a2⟩ := a
  obtain ⟨b1, b2⟩ := b
  simp [keyLtb]

theorem keyLtb_ne {a b : Nat × Nat} (h : keyLtb a b = true) : a ≠ b := by
  obtain ⟨a1, a2⟩ := a
  obtain ⟨b1, b2⟩ := b
  rw [keyLtb_iff] at h
  simp only [ne_eq, Prod.mk.injEq, not_and]
  omega

theorem keyLtb_trans {a b c : Nat × Nat} (h1 : keyLtb a b = true)
    (h2 : keyLtb b c = true) : keyLtb a c = true := by
  rw [keyLtb_iff] at h1 h2 ⊢
  omega

theorem keyLtb_of_not {a b : Nat × Nat} (h1 : ¬ keyLtb a b = true)
    (h2 : ¬ a = b) : keyLtb b a = true := by
  obtain ⟨a1, a2⟩ := a
  obtain ⟨b1, b2⟩ := b
  rw [keyLtb_iff] at h1 ⊢
  simp only [Prod.mk.injEq, not_and] at h2
  omega

theorem assocGet_assocInsert_self {α β : Type} [DecidableEq α]
    (l : List (α × β)) (k : α) (v : β) :
    assocGet (assocInsert l k v).1 k = some v := by
  induction l with
  | nil => simp [assocInsert, assocGet]
  | cons hd tl ih =>
    obtain ⟨k2, w⟩ := hd
    by_cases hk : k2 = k
    · simp [assocInsert, hk, assocGet]
    · simp only [assocInsert, if_neg hk]
      simp only [assocGet, if_neg hk]
      exact ih

theorem assocGet_assocInsert_other {α β : Type} [DecidableEq α]
    (l : List (α × β)) (k k2 : α) (v : β) (h : ¬ k2 = k) :
    assocGet (assocInsert l k v).1 k2 = assocGet l k2 := by
  have hkk : ¬ k = k2 := fun hh => h hh.symm
  induction l with
  | nil => simp [assocInsert, assocGet, hkk]
  | cons hd tl ih =>
    obtain ⟨ka, w⟩ := hd
    by_cases hka : ka = k
    · subst hka
      simp only [assocInsert, if_pos rfl]
      simp only [assocGet, if_neg hkk]
    · simp only [assocInsert, if_neg hka]
      by_cases hka2 : ka = k2
      · simp [assocGet, hka2]
      · simp only [assocGet, if_neg hka2]
        exact ih

theorem assocInsert_snd {α β : Type} [DecidableEq α]
    (l : List (α × β)) (k : α) (v : β) :
    (assocInsert l k v).2 = assocGet l k := by
  induction l with
  | nil => simp [assocInsert, assocGet]
  | cons hd tl ih =>
    obtain ⟨k2, w⟩ := hd
    by_cases hk : k2 = k
    · simp [assocInsert, hk, assocGet]
    · simp only [assocInsert, if_neg hk]
      simp only [assocGet, if_neg hk]
      exact ih

theorem mem_assocInsert {α β : Type} [DecidableEq α]
    {ke : α × β} {l : List (α × β)} {k : α} {v : β}
    (h : ke ∈ (assocInsert l k v).1) : ke = (k, v) ∨ ke ∈ l := by
  induction l with
  | nil =>
    simp [assocInsert] at h
    exact Or.inl h
  | cons hd tl ih =>
    obtain ⟨k2, w⟩ := hd
    by_cases hk : k2 = k
    · subst hk
      simp only [assocInsert, if_pos rfl] at h
      rcases List.mem_cons.mp h with h | h
      · exact Or.inl (by simpa using h)
      · exact Or.inr (List.mem_cons_of_mem _ h)
    · simp only [assocInsert, if_neg hk] at h
      rcases List.mem_cons.mp h with h | h
      · exact Or.inr (h ▸ List.mem_cons_self _ _)
      · rcases ih h with h | h
        · exact Or.inl h
        · exact Or.inr (List.mem_cons_of_mem _ h)

theorem mem_assocRemove {α β : Type} [DecidableEq α]
    {ke : α × β} {l : List (α × β)} {k : α}
    (h : ke ∈ assocRemove l k) : ke ∈ l := by
  induction l with
  | nil => simp [assocRemove] at h
  | cons hd tl ih =>
    obtain ⟨k2, w⟩ := hd
    by_cases hk : k2 = k
    · simp only [assocRemove, if_pos hk] at h
      exact List.mem_cons_of_mem _ h
    · simp only [assocRemove, if_neg hk] at h
      rcases List.mem_cons.mp h with h | h
      · exact h ▸ List.mem_cons_self _ _
      · exact List.mem_cons_of_mem _ (ih h)

theorem assocRemove_sublist {α β : Type} [DecidableEq α]
    (l : List (α × β)) (k : α) : List.Sublist (assocRemove l k) l := by
  induction l with
  | nil => simp [assocRemove]
  | cons hd tl ih =>
    obtain ⟨k2, w⟩ := hd
    by_cases hk : k2 = k
    · simp only [assocRemove, if_pos hk]
      exact List.sublist_cons_self _ _
    · simp only [assocRemove, if_neg hk]
      exact List.Sublist.cons₂ _ ih

theorem assocGet_assocRemove_other {α β : Type} [DecidableEq α]
    (l : List (α × β)) (k k2 : α) (h : ¬ k2 = k) :
    assocGet (assocRemove l k) k2 = assocGet l k2 := by
  induction l with
  | nil => simp [assocRemove]
  | cons hd tl ih =>
    obtain ⟨ka, w⟩ := hd
    by_cases hka : ka = k
    · subst hka
      have hne : ¬ ka = k2 := fun hh => h hh.symm
      simp [assocRemove, assocGet, hne]
    · simp only [assocRemove, if_neg hka]
      by_cases hka2 : ka = k2
      · simp [assocGet, hka2]
      · simp only [assocGet, if_neg hka2]
        exact ih

theorem assocGet_of_mem {α β : Type} [DecidableEq α] {l : List (α × β)}
    (hp : List.Pairwise (fun a b => a.1 ≠ b.1) l) {ke : α × β}
    (h : ke ∈ l) : assocGet l ke.1 = some ke.2 := by
  induction l with
  | nil => cases h
  | cons hd tl ih =>
    obtain ⟨k2, w⟩ := hd
    obtain ⟨hhd, htl⟩ := List.pairwise_cons.mp hp
    rcases List.mem_cons.mp h with h | h
    · subst h
      simp [assocGet]
    · have hne : ¬ k2 = ke.1 := hhd ke h
      simp only [assocGet, if_neg hne]
      exact ih htl h

theorem mem_assocRemove_ne {α β : Type} [DecidableEq α] {l : List (α × β)}
    (hp : List.Pairwise (fun a b => a.1 ≠ b.1) l) {ke : α × β} {k : α}
    (h : ke ∈ assocRemove l k) : ke.1 ≠ k := by
  induction l with
  | nil => simp [assocRemove] at h
  | cons hd tl ih =>
    obtain ⟨k2, w⟩ := hd
    obtain ⟨hhd, htl⟩ := List.pairwise_cons.mp hp
    by_cases hk : k2 = k
    · simp only [assocRemove, if_pos hk] at h
      intro hke
      exact hhd ke h (hk.symm ▸ hke.symm ▸ rfl)
    · simp only [assocRemove, if_neg hk] at h
      rcases List.mem_cons.mp h with h | h
      · subst h
        exact hk
      · exact ih htl h

theorem mem_assocRemove_of_ne {α β : Type} [DecidableEq α]
    {l : List (α × β)} {ke : α × β} {k : α}
    (h : ke ∈ l) (hne : ke.1 ≠ k) : ke ∈ assocRemove l k := by
  induction l with
  | nil => cases h
  | cons hd tl ih =>
    obtain ⟨k2, w⟩ := hd
    by_cases hk : k2 = k
    · simp only [assocRemove, if_pos hk]
      rcases List.mem_cons.mp h with h | h
      · exact absurd (show ke.1 = k by rw [h]; exact hk) hne
      · exact h
    · simp only [assocRemove, if_neg hk]
      rcases List.mem_cons.mp h with h | h
      · exact h ▸ List.mem_cons_self _ _
      · exact List.mem_cons_of_mem _ (ih h)

theorem mem_btreeInsert_aux {l : List ((Nat × Nat) × List Nat)}
    {k : Nat × Nat} {v : List Nat} {row : (Nat × Nat) × List Nat}
    (h : row ∈ btreeInsert l k v) : row = (k, v) ∨ row ∈ l := by
  induction l with
  | nil =>
    simp [btreeInsert] at h
    exact Or.inl h
  | cons hd tl ih =>
    obtain ⟨k2, w⟩ := hd
    by_cases hlt : keyLtb k k2 = true
    · simp only [btreeInsert, if_pos hlt] at h
      rcases List.mem_cons.mp h with h | h
      · exact Or.inl h
      · exact Or.inr h
    · simp only [btreeInsert, if_neg hlt] at h
      by_cases heq : k2 = k
      · simp only [if_pos heq] at h
        rcases List.mem_cons.mp h with h | h
        · exact Or.inl h
        · exact Or.inr (List.mem_cons_of_mem _ h)
      · simp only [if_neg heq] at h
        rcases List.mem_cons.mp h with h | h
        · exact Or.inr (h ▸ List.mem_cons_self _ _)
        · rcases ih h with h | h
          · exact Or.inl h
          · exact Or.inr (List.mem_cons_of_mem _ h)

theorem sorted_btreeInsert {l : List ((Nat × Nat) × List Nat)}
    (hp : List.Pairwise expRel l) (k : Nat × Nat) (v : List Nat) :
    List.Pairwise expRel (btreeInsert l k v) := by
  induction l with
  | nil => simp [btreeInsert]
  | cons hd tl ih =>
    obtain ⟨k2, w⟩ := hd
    obtain ⟨hhd, htl⟩ := List.pairwise_cons.mp hp
    by_cases hlt : keyLtb k k2 = true
    · simp only [btreeInsert, if_pos hlt]
      refine List.pairwise_cons.mpr ⟨?_, hp⟩
      intro b hb
      rcases List.mem_cons.mp hb with hb | hb
      · subst hb
        exact hlt
      · exact keyLtb_trans hlt (hhd b hb)
    · simp only [btreeInsert, if_neg hlt]
      by_cases heq : k2 = k
      · simp only [if_pos heq]
        refine List.pairwise_cons.mpr ⟨?_, htl⟩
        intro b hb
        exact heq ▸ hhd b hb
      · simp only [if_neg heq]
        refine List.pairwise_cons.mpr ⟨?_, ih htl⟩
        intro b hb
        rcases mem_btreeInsert_aux hb with hb | hb
        · subst hb
          exact keyLtb_of_not hlt (fun hh => heq hh.symm)
        · exact hhd b hb

theorem mem_btreeInsert_ne {l : List ((Nat × Nat) × List Nat)}
    (hp : List.Pairwise expRel l) {k : Nat × Nat} {v : List Nat}
    {row : (Nat × Nat) × List Nat} (h : row ∈ btreeInsert l k v) :
    row = (k, v) ∨ (row ∈ l ∧ row.1 ≠ k) := by
  induction l with
  | nil =>
    simp [btreeInsert] at h
    exact Or.inl h
  | cons hd tl ih =>
    obtain ⟨k2, w⟩ := hd
    obtain ⟨hhd, htl⟩ := List.pairwise_cons.mp hp
    by_cases hlt : keyLtb k k2 = true
    · simp only [btreeInsert, if_pos hlt] at h
      rcases List.mem_cons.mp h with h | h
      · exact Or.inl h
      · refine Or.inr ⟨h, ?_⟩
        rcases List.mem_cons.mp h with h | h
        · subst h
          exact fun hh => keyLtb_ne hlt hh.symm
        · exact fun hh => keyLtb_ne (keyLtb_trans hlt (hhd row h)) hh.symm
    · simp only [btreeInsert, if_neg hlt] at h
      by_cases heq : k2 = k
      · simp only [if_pos heq] at h
        rcases List.mem_cons.mp h with h | h
        · exact Or.inl h
        · exact Or.inr ⟨List.mem_cons_of_mem _ h,
            fun hh => keyLtb_ne (hhd row h) (heq ▸ hh.symm)⟩
      · simp only [if_neg heq] at h
        rcases List.mem_cons.mp h with h | h
        · exact Or.inr ⟨h ▸ List.mem_cons_self _ _, h ▸ heq⟩
        · rcases ih htl h with h | h
          · exact Or.inl h
          · exact Or.inr ⟨List.mem_cons_of_mem _ h.1, h.2⟩

theorem self_mem_btreeInsert (l : List ((Nat × Nat) × List Nat))
    (k : Nat × Nat) (v : List Nat) : (k, v) ∈ btreeInsert l k v := by
  induction l with
  | nil => simp [btreeInsert]
  | cons hd tl ih =>
    obtain ⟨k2, w⟩ := hd
    by_cases hlt : keyLtb k k2 = true
    · simp only [btreeInsert, if_pos hlt]
      exact List.mem_cons_self _ _
    · simp only [btreeInsert, if_neg hlt]
      by_cases heq : k2 = k
      · simp only [if_pos heq]
        exact List.mem_cons_self _ _
      · simp only [if_neg heq]
        exact List.mem_cons_of_mem _ ih

theorem mem_btreeInsert_of_ne {l : List ((Nat × Nat) × List Nat)}
    {row : (Nat × Nat) × List Nat} {k : Nat × Nat} {v : List Nat}
    (h : row ∈ l) (hne : row.1 ≠ k) : row ∈ btreeInsert l k v := by
  induction l with
  | nil => cases h
  | cons hd tl ih =>
    obtain ⟨k2, w⟩ := hd
    by_cases hlt : keyLtb k k2 = true
    · simp only [btreeInsert, if_pos hlt]
      exact List.mem_cons_of_mem _ h
    · simp only [btreeInsert, if_neg hlt]
      by_cases heq : k2 = k
      · simp only [if_pos heq]
        rcases List.mem_cons.mp h with h | h
        · exact absurd (show row.1 = k by rw [h]; exact heq) hne
        · exact List.mem_cons_of_mem _ h
      · simp only [if_neg heq]
        rcases List.mem_cons.mp h with h | h
        · exact h ▸ List.mem_cons_self _ _
        · exact List.mem_cons_of_mem _ (ih h)

theorem btreeRemove_eq_assocRemove (l : List ((Nat × Nat) × List Nat))
    (k : Nat × Nat) : btreeRemove l k = assocRemove l k := by
  induction l with
  | nil => simp [btreeRemove, assocRemove]
  | cons hd tl ih =>
    obtain ⟨k2, w⟩ := hd
    by_cases hk : k2 = k
    · simp [btreeRemove, assocRemove, hk]
    · simp only [btreeRemove, assocRemove, if_neg hk]
      rw [ih]

theorem sorted_keys_ne {l : List ((Nat × Nat) × List Nat)}
    (hp : List.Pairwise expRel l) :
    List.Pairwise (fun (a b : (Nat × Nat) × List Nat) => a.1 ≠ b.1) l :=
  hp.imp (fun h => keyLtb_ne h)

theorem filter_key_below {tl : List ((Nat × Nat) × List Nat)}
    {key0 : Nat × Nat} (h : ∀ b ∈ tl, keyLtb key0 b.1 = true) :
    tl.filter (fun row => decide (row.1 = key0)) = [] := by
  induction tl with
  | nil => rfl
  | cons hd2 tl2 ih2 =>
    rw [List.filter_cons]
    rw [if_neg (by
      simp only [decide_eq_true_eq]
      exact fun hh => keyLtb_ne (h hd2 (List.mem_cons_self _ _)) hh.symm)]
    exact ih2 (fun b hb => h b (List.mem_cons_of_mem _ hb))

theorem filter_key_sorted {l : List ((Nat × Nat) × List Nat)}
    (hp : List.Pairwise expRel l) {row0 : (Nat × Nat) × List Nat}
    (h : row0 ∈ l) :
    l.filter (fun row => decide (row.1 = row0.1)) = [row0] := by
  induction l with
  | nil => cases h
  | cons hd tl ih =>
    obtain ⟨hhd, htl⟩ := List.pairwise_cons.mp hp
    rcases List.mem_cons.mp h with h | h
    · subst h
      rw [List.filter_cons]
      rw [if_pos (by simp)]
      rw [filter_key_below (fun b hb => hhd b hb)]
    · have hne : ¬ (hd.1 = row0.1) := keyLtb_ne (hhd row0 h)
      rw [List.filter_cons]
      rw [if_neg (by simp only [decide_eq_true_eq]; exact hne)]
      exact ih htl h

theorem rowOkb_eq (entries : List (List Nat × Entry))
    (row : (Nat × Nat) × List Nat) : rowOkb entries row = true ↔
    ∃ e, assocGet entries row.2 = some e ∧ e.id = row.1.2 ∧
      e.expires_at = some row.1.1 := by
  rw [rowOkb]
  cases hget : assocGet entries row.2 with
  | none => simp
  | some e => simp [hget]

theorem entryOkb_some {exps : List ((Nat × Nat) × List Nat)}
    {ke : List Nat × Entry} {when : Nat} (h : ke.2.expires_at = some when) :
    entryOkb exps ke = true ↔ ((when, ke.2.id), ke.1) ∈ exps := by
  rw [entryOkb, h]
  simp

theorem entryOkb_none {exps : List ((Nat × Nat) × List Nat)}
    {ke : List Nat × Entry} (h : ke.2.expires_at = none) :
    entryOkb exps ke = true := by
  rw [entryOkb, h]

theorem mem_of_assocGet {α β : Type} [DecidableEq α] {l : List (α × β)}
    {k : α} {v : β} (h : assocGet l k = some v) : (k, v) ∈ l := by
  induction l with
  | nil => simp [assocGet] at h
  | cons hd tl ih =>
    obtain ⟨k2, w⟩ := hd
    by_cases hk : k2 = k
    · simp only [assocGet, if_pos hk, Option.some.injEq] at h
      subst hk
      subst h
      exact List.mem_cons_self _ _
    · simp only [assocGet, if_neg hk] at h
      exact List.mem_cons_of_mem _ (ih h)

theorem mem_assocInsert_ne {α β : Type} [DecidableEq α] {l : List (α × β)}
    (hp : List.Pairwise (fun (a b : α × β) => a.1 ≠ b.1) l) {k : α} {v : β}
    {ke : α × β} (h : ke ∈ (assocInsert l k v).1) :
    ke = (k, v) ∨ (ke ∈ l ∧ ke.1 ≠ k) := by
  induction l with
  | nil =>
    simp [assocInsert] at h
    exact Or.inl h
  | cons hd tl ih =>
    obtain ⟨k2, w⟩ := hd
    obtain ⟨hhd, htl⟩ := List.pairwise_cons.mp hp
    by_cases hk : k2 = k
    · subst hk
      simp only [assocInsert, if_pos rfl] at h
      rcases List.mem_cons.mp h with h | h
      · exact Or.inl (by simpa using h)
      · exact Or.inr ⟨List.mem_cons_of_mem _ h, fun hh => hhd ke h hh.symm⟩
    · simp only [assocInsert, if_neg hk] at h
      rcases List.mem_cons.mp h with h | h
      · refine Or.inr ⟨h ▸ List.mem_cons_self _ _, ?_⟩
        rw [h]
        exact hk
      · rcases ih htl h with h | h
        · exact Or.inl h
        · exact Or.inr ⟨List.mem_cons_of_mem _ h.1, h.2⟩

theorem pairwise_assocInsert_ent {es : List (List Nat × Entry)}
    (h2 : List.Pairwise entRel es) {k : List Nat} {v : Entry}
    (hid : ∀ ke ∈ es, ke.2.id ≠ v.id) :
    List.Pairwise entRel (assocInsert es k v).1 := by
  induction es with
  | nil => simp [assocInsert]
  | cons hd tl ih =>
    obtain ⟨k2, w⟩ := hd
    obtain ⟨hhd, htl⟩ := List.pairwise_cons.mp h2
    by_cases hk : k2 = k
    · simp only [assocInsert, if_pos hk]
      refine List.pairwise_cons.mpr ⟨?_, htl⟩
      intro b hb
      exact ⟨(hhd b hb).1, fun hh => hid b (List.mem_cons_of_mem _ hb) hh.symm⟩
    · simp only [assocInsert, if_neg hk]
      refine List.pairwise_cons.mpr
        ⟨?_, ih htl (fun ke hke => hid ke (List.mem_cons_of_mem _ hke))⟩
      intro b hb
      rcases mem_assocInsert hb with hb | hb
      · subst hb
        exact ⟨hk, hid (k2, w) (List.mem_cons_self _ _)⟩
      · exact hhd b hb

theorem pairwise_ent_ids {es : List (List Nat × Entry)}
    (h2 : List.Pairwise entRel es) {a b : List Nat × Entry}
    (ha : a ∈ es) (hb : b ∈ es) (hne : a.1 ≠ b.1) : a.2.id ≠ b.2.id := by
  induction es with
  | nil => cases ha
  | cons hd tl ih =>
    obtain ⟨hhd, htl⟩ := List.pairwise_cons.mp h2
    rcases List.mem_cons.mp ha with ha | ha <;>
      rcases List.mem_cons.mp hb with hb | hb
    · rw [ha, hb] at hne
      exact absurd rfl hne
    · rw [ha]
      exact (hhd b hb).2
    · rw [hb]
      exact fun hh => (hhd a ha).2 hh.symm
    · exact ih htl ha hb

theorem strongInv_claimInv {s : State} (h : StrongInv s) : ClaimInv s := by
  obtain ⟨hsort, hpair, hrows, hents, _⟩ := h
  have hpairf : List.Pairwise (fun (a b : List Nat × Entry) => a.1 ≠ b.1)
      s.entries := hpair.imp (fun hh => hh.1)
  refine ⟨?_, ?_, ?_⟩
  · intro ke hke when hwhen
    have hmem : ((when, ke.2.id), ke.1) ∈ s.expirations :=
      (entryOkb_some hwhen).mp (hents ke hke)
    exact filter_key_sorted hsort hmem
  · intro ke hke hnone row hrow hkey
    obtain ⟨e, hget, _, hexp⟩ := (rowOkb_eq _ _).mp (hrows row hrow)
    rw [hkey] at hget
    rw [assocGet_of_mem hpairf hke] at hget
    have he := Option.some.inj hget
    rw [← he, hnone] at hexp
    cases hexp
  · intro row hrow
    obtain ⟨e, hget, _, _⟩ := (rowOkb_eq _ _).mp (hrows row hrow)
    rw [hget]
    rfl

theorem strongInv_init : StrongInv initState := by
  refine ⟨List.Pairwise.nil, List.Pairwise.nil, ?_, ?_, ?_⟩ <;>
    intro x hx <;> cases hx

theorem strongInv_subscribe {s : State} (h : StrongInv s) (ch : List Nat) :
    StrongInv (Db.subscribe s ch) := by
  obtain ⟨h1, h2, h3, h4, h5⟩ := h
  rw [Db.subscribe]
  cases assocGet s.pub_sub ch with
  | none => exact ⟨h1, h2, h3, h4, h5⟩
  | some r => exact ⟨h1, h2, h3, h4, h5⟩

theorem strongInv_publish {s : State} (h : StrongInv s)
    (ch msg : List Nat) : StrongInv (Db.publish s ch msg).1 := by
  rw [Db.publish]
  cases assocGet s.pub_sub ch with
  | none => exact h
  | some r => exact h

theorem purgeLoop_inv (now : Nat) :
    ∀ (exps : List ((Nat × Nat) × List Nat))
      (entries : List (List Nat × Entry)) (pub : List (List Nat × Nat))
      (nid : Nat) (sd : Bool),
      StrongInv ⟨entries, pub, exps, nid, sd⟩ →
      StrongInv ⟨(purgeLoop now exps entries).2.1, pub,
                 (purgeLoop now exps entries).1, nid, sd⟩ := by
  intro exps
  induction exps with
  | nil =>
    intro entries pub nid sd h
    simpa [purgeLoop] using h
  | cons hd rest ih =>
    intro entries pub nid sd h
    obtain ⟨k0, key⟩ := hd
    by_cases hnow : now < k0.1
    · simp only [purgeLoop, if_pos hnow]
      exact h
    · simp only [purgeLoop, if_neg hnow]
      refine ih (assocRemove entries key) pub nid sd ?_
      obtain ⟨h1, h2, h3, h4, h5⟩ := h
      obtain ⟨hhd, hrest⟩ := List.pairwise_cons.mp h1
      have hpairf : List.Pairwise (fun (a b : List Nat × Entry) => a.1 ≠ b.1)
          entries := h2.imp (fun hh => hh.1)
      refine ⟨hrest,
        List.Pairwise.sublist (assocRemove_sublist entries key) h2, ?_, ?_, ?_⟩
      · intro row hrow
        have hok := h3 row (List.mem_cons_of_mem _ hrow)
        have hkr : ¬ row.2 = key := by
          intro hkey
          obtain ⟨e, hget, hid, hexp⟩ := (rowOkb_eq _ _).mp hok
          obtain ⟨e0, hget0, hid0, hexp0⟩ := (rowOkb_eq _ _).mp
            (h3 (k0, key) (List.mem_cons_self _ _))
          rw [hkey] at hget
          rw [hget0] at hget
          have he : e0 = e := Option.some.inj hget
          subst he
          have hkk : row.1 = k0 := by
            rw [hexp] at hexp0
            have ha := Option.some.inj hexp0
            rw [hid] at hid0
            exact Prod.ext_iff.mpr ⟨ha, hid0⟩
          exact keyLtb_ne (hhd row hrow) hkk.symm
        rw [rowOkb_eq] at hok ⊢
        rw [assocGet_assocRemove_other entries key row.2 hkr]
        exact hok
      · intro ke hke
        have hke2 : ke ∈ entries := mem_assocRemove hke
        have hok := h4 ke hke2
        have hkne : ke.1 ≠ key := mem_assocRemove_ne hpairf hke
        cases hexp : ke.2.expires_at with
        | none => exact entryOkb_none hexp
        | some when =>
          rw [entryOkb_some hexp] at hok ⊢
          rcases List.mem_cons.mp hok with hh | hh
          · exact absurd (congrArg Prod.snd hh) hkne
          · exact hh
      · intro ke hke
        exact h5 ke (mem_assocRemove hke)

theorem strongInv_purge {s : State} (h : StrongInv s) (now : Nat) :
    StrongInv (Shared.purge_expired_keys s now).1 := by
  rw [Shared.purge_expired_keys]
  by_cases hsd : s.shutdown
  · simp only [if_pos hsd]
    exact h
  · simp only [if_neg hsd]
    exact purgeLoop_inv now s.expirations s.entries s.pub_sub s.next_id
      s.shutdown h

theorem strongInv_set {s : State} (h : StrongInv s) (now : Nat)
    (key value : List Nat) (expire : Option Nat) :
    StrongInv (Db.set s now key value expire).1 := by
  obtain ⟨h1, h2, h3, h4, h5⟩ := h
  have hpairf : List.Pairwise (fun (a b : List Nat × Entry) => a.1 ≠ b.1)
      s.entries := h2.imp (fun hh => hh.1)
  cases expire with
  | none =>
    simp only [Db.set]
    rw [assocInsert_snd]
    cases hprev : assocGet s.entries key with
    | none =>
      refine ⟨h1, ?_, ?_, ?_, ?_⟩
      · exact pairwise_assocInsert_ent h2
          (fun ke hke => Nat.ne_of_lt (h5 ke hke))
      · intro row hrow
        obtain ⟨e, hget, hid2, hexp⟩ := (rowOkb_eq _ _).mp (h3 row hrow)
        have hkr : ¬ row.2 = key := by
          intro hh
          rw [hh, hprev] at hget
          cases hget
        rw [rowOkb_eq]
        refine ⟨e, ?_, hid2, hexp⟩
        rw [assocGet_assocInsert_other _ _ _ _ hkr]
        exact hget
      · intro ke hke
        rcases mem_assocInsert_ne hpairf hke with hke | ⟨hke, hkne⟩
        · subst hke
          exact entryOkb_none rfl
        · exact h4 ke hke
      · intro ke hke
        rcases mem_assocInsert_ne hpairf hke with hke | ⟨hke, _⟩
        · subst hke
          exact Nat.lt_succ_self _
        · exact Nat.lt_succ_of_lt (h5 ke hke)
    | some pe =>
      dsimp only
      cases hpe : pe.expires_at with
      | none =>
        dsimp only
        refine ⟨h1, ?_, ?_, ?_, ?_⟩
        · exact pairwise_assocInsert_ent h2
            (fun ke hke => Nat.ne_of_lt (h5 ke hke))
        · intro row hrow
          obtain ⟨e, hget, hid2, hexp⟩ := (rowOkb_eq _ _).mp (h3 row hrow)
          have hkr : ¬ row.2 = key := by
            intro hh
            rw [hh, hprev] at hget
            have he := Option.some.inj hget
            subst he
            rw [hpe] at hexp
            cases hexp
          rw [rowOkb_eq]
          refine ⟨e, ?_, hid2, hexp⟩
          rw [assocGet_assocInsert_other _ _ _ _ hkr]
          exact hget
        · intro ke hke
          rcases mem_assocInsert_ne hpairf hke with hke | ⟨hke, hkne⟩
          · subst hke
            exact entryOkb_none rfl
          · exact h4 ke hke
        · intro ke hke
          rcases mem_assocInsert_ne hpairf hke with hke | ⟨hke, _⟩
          · subst hke
            exact Nat.lt_succ_self _
          · exact Nat.lt_succ_of_lt (h5 ke hke)
      | some when0 =>
        dsimp only
        have hpemem : (key, pe) ∈ s.entries := mem_of_assocGet hprev
        refine ⟨?_, ?_, ?_, ?_, ?_⟩
        · rw [btreeRemove_eq_assocRemove]
          exact List.Pairwise.sublist (assocRemove_sublist _ _) h1
        · exact pairwise_assocInsert_ent h2
            (fun ke hke => Nat.ne_of_lt (h5 ke hke))
        · intro row hrow
          rw [btreeRemove_eq_assocRemove] at hrow
          have hrow2 : row ∈ s.expirations := mem_assocRemove hrow
          have hne0 : row.1 ≠ (when0, pe.id) :=
            mem_assocRemove_ne (sorted_keys_ne h1) hrow
          obtain ⟨e, hget, hid2, hexp⟩ := (rowOkb_eq _ _).mp (h3 row hrow2)
          have hkr : ¬ row.2 = key := by
            intro hh
            rw [hh, hprev] at hget
            have he := Option.some.inj hget
            subst he
            rw [hpe] at hexp
            have hw := Option.some.inj hexp
            exact hne0 (Prod.ext_iff.mpr ⟨hw.symm, hid2.symm⟩)
          rw [rowOkb_eq]
          refine ⟨e, ?_, hid2, hexp⟩
          rw [assocGet_assocInsert_other _ _ _ _ hkr]
          exact hget
        · intro ke hke
          rcases mem_assocInsert_ne hpairf hke with hke | ⟨hke, hkne⟩
          · subst hke
            exact entryOkb_none rfl
          · cases hexp2 : ke.2.expires_at with
            | none => exact entryOkb_none hexp2
            | some w =>
              rw [entryOkb_some hexp2]
              have hmem := (entryOkb_some hexp2).mp (h4 ke hke)
              rw [btreeRemove_eq_assocRemove]
              refine mem_assocRemove_of_ne hmem ?_
              intro hh
              exact pairwise_ent_ids h2 hke hpemem hkne
                (congrArg Prod.snd hh)
        · intro ke hke
          rcases mem_assocInsert_ne hpairf hke with hke | ⟨hke, _⟩
          · subst hke
            exact Nat.lt_succ_self _
          · exact Nat.lt_succ_of_lt (h5 ke hke)
  | some duration =>
    simp only [Db.set]
    rw [assocInsert_snd]
    have hsort0 : List.Pairwise expRel
        (btreeInsert s.expirations (now + duration, s.next_id) key) :=
      sorted_btreeInsert h1 _ _
    cases hprev : assocGet s.entries key with
    | none =>
      refine ⟨hsort0, ?_, ?_, ?_, ?_⟩
      · exact pairwise_assocInsert_ent h2
          (fun ke hke => Nat.ne_of_lt (h5 ke hke))
      · intro row hrow
        rcases mem_btreeInsert_ne h1 hrow with hnew | ⟨hold, hne⟩
        · subst hnew
          rw [rowOkb_eq]
          exact ⟨⟨s.next_id, value, some (now + duration)⟩,
            assocGet_assocInsert_self _ _ _, rfl, rfl⟩
        · obtain ⟨e, hget, hid2, hexp⟩ := (rowOkb_eq _ _).mp (h3 row hold)
          have hkr : ¬ row.2 = key := by
            intro hh
            rw [hh, hprev] at hget
            cases hget
          rw [rowOkb_eq]
          refine ⟨e, ?_, hid2, hexp⟩
          rw [assocGet_assocInsert_other _ _ _ _ hkr]
          exact hget
      · intro ke hke
        rcases mem_assocInsert_ne hpairf hke with hke | ⟨hke, hkne⟩
        · subst hke
          exact (entryOkb_some rfl).mpr (self_mem_btreeInsert _ _ _)
        · cases hexp2 : ke.2.expires_at with
          | none => exact entryOkb_none hexp2
          | some w =>
            rw [entryOkb_some hexp2]
            have hmem := (entryOkb_some hexp2).mp (h4 ke hke)
            refine mem_btreeInsert_of_ne hmem ?_
            intro hh
            have := congrArg Prod.snd hh
            exact Nat.ne_of_lt (h5 ke hke) this
      · intro ke hke
        rcases mem_assocInsert_ne hpairf hke with hke | ⟨hke, _⟩
        · subst hke
          exact Nat.lt_succ_self _
        · exact Nat.lt_succ_of_lt (h5 ke hke)
    | some pe =>
      dsimp only
      cases hpe : pe.expires_at with
      | none =>
        dsimp only
        refine ⟨hsort0, ?_, ?_, ?_, ?_⟩
        · exact pairwise_assocInsert_ent h2
            (fun ke hke => Nat.ne_of_lt (h5 ke hke))
        · intro row hrow
          rcases mem_btreeInsert_ne h1 hrow with hnew | ⟨hold, hne⟩
          · subst hnew
            rw [rowOkb_eq]
            exact ⟨⟨s.next_id, value, some (now + duration)⟩,
              assocGet_assocInsert_self _ _ _, rfl, rfl⟩
          · obtain ⟨e, hget, hid2, hexp⟩ := (rowOkb_eq _ _).mp (h3 row hold)
            have hkr : ¬ row.2 = key := by
              intro hh
              rw [hh, hprev] at hget
              have he := Option.some.inj hget
              subst he
              rw [hpe] at hexp
              cases hexp
            rw [rowOkb_eq]
            refine ⟨e, ?_, hid2, hexp⟩
            rw [assocGet_assocInsert_other _ _ _ _ hkr]
            exact hget
        · intro ke hke
          rcases mem_assocInsert_ne hpairf hke with hke | ⟨hke, hkne⟩
          · subst hke
            exact (entryOkb_some rfl).mpr (self_mem_btreeInsert _ _ _)
          · cases hexp2 : ke.2.expires_at with
            | none => exact entryOkb_none hexp2
            | some w =>
              rw [entryOkb_some hexp2]
              have hmem := (entryOkb_some hexp2).mp (h4 ke hke)
              refine mem_btreeInsert_of_ne hmem ?_
              intro hh
              have := congrArg Prod.snd hh
              exact Nat.ne_of_lt (h5 ke hke) this
        · intro ke hke
          rcases mem_assocInsert_ne hpairf hke with hke | ⟨hke, _⟩
          · subst hke
            exact Nat.lt_succ_self _
          · exact Nat.lt_succ_of_lt (h5 ke hke)
      | some when0 =>
        dsimp only
        have hpemem : (key, pe) ∈ s.entries := mem_of_assocGet hprev
        refine ⟨?_, ?_, ?_, ?_, ?_⟩
        · rw [btreeRemove_eq_assocRemove]
          exact List.Pairwise.sublist (assocRemove_sublist _ _) hsort0
        · exact pairwise_assocInsert_ent h2
            (fun ke hke => Nat.ne_of_lt (h5 ke hke))
        · intro row hrow
          rw [btreeRemove_eq_assocRemove] at hrow
          have hrow2 : row ∈ btreeInsert s.expirations
              (now + duration, s.next_id) key := mem_assocRemove hrow
          have hne0 : row.1 ≠ (when0, pe.id) :=
            mem_assocRemove_ne (sorted_keys_ne hsort0) hrow
          rcases mem_btreeInsert_ne h1 hrow2 with hnew | ⟨hold, hne⟩
          · subst hnew
            rw [rowOkb_eq]
            exact ⟨⟨s.next_id, value, some (now + duration)⟩,
              assocGet_assocInsert_self _ _ _, rfl, rfl⟩
          · obtain ⟨e, hget, hid2, hexp⟩ := (rowOkb_eq _ _).mp (h3 row hold)
            have hkr : ¬ row.2 = key := by
              intro hh
              rw [hh, hprev] at hget
              have he := Option.some.inj hget
              subst he
              rw [hpe] at hexp
              have hw := Option.some.inj hexp
              exact hne0 (Prod.ext_iff.mpr ⟨hw.symm, hid2.symm⟩)
            rw [rowOkb_eq]
            refine ⟨e, ?_, hid2, hexp⟩
            rw [assocGet_assocInsert_other _ _ _ _ hkr]
            exact hget
        · intro ke hke
          rcases mem_assocInsert_ne hpairf hke with hke | ⟨hke, hkne⟩
          · subst hke
            rw [entryOkb_some rfl]
            rw [btreeRemove_eq_assocRemove]
            refine mem_assocRemove_of_ne (self_mem_btreeInsert _ _ _) ?_
            intro hh
            have := congrArg Prod.snd hh
            exact Nat.ne_of_lt (h5 (key, pe) hpemem) this.symm
          · cases hexp2 : ke.2.expires_at with
            | none => exact entryOkb_none hexp2
            | some w =>
              rw [entryOkb_some hexp2]
              rw [btreeRemove_eq_assocRemove]
              have hmem := (entryOkb_some hexp2).mp (h4 ke hke)
              have hmem2 := mem_btreeInsert_of_ne
                (v := key) (k := (now + duration, s.next_id)) hmem (by
                  intro hh
                  have := congrArg Prod.snd hh
                  exact Nat.ne_of_lt (h5 ke hke) this)
              refine mem_assocRemove_of_ne hmem2 ?_
              intro hh
              exact pairwise_ent_ids h2 hke hpemem hkne
                (congrArg Prod.snd hh)
        · intro ke hke
          rcases mem_assocInsert_ne hpairf hke with hke | ⟨hke, _⟩
          · subst hke
            exact Nat.lt_succ_self _
          · exact Nat.lt_succ_of_lt (h5 ke hke)

theorem db_set_entries_none (s : State) (now : Nat) (key value : List Nat) :
    (Db.set s now key value none).1.entries =
    (assocInsert s.entries key ⟨s.next_id, value, none⟩).1 := by
  simp only [Db.set]
  rw [assocInsert_snd]
  cases assocGet s.entries key with
  | none => rfl
  | some pe =>
    dsimp only
    cases pe.expires_at with
    | none => rfl
    | some w => rfl

theorem purgeLoop_keeps (now : Nat) (k : List Nat) :
    ∀ (exps : List ((Nat × Nat) × List Nat))
      (entries : List (List Nat × Entry)),
      (∀ row ∈ exps, row.2 ≠ k) →
      assocGet (purgeLoop now exps entries).2.1 k = assocGet entries k ∧
      ∀ row ∈ (purgeLoop now exps entries).1, row.2 ≠ k := by
  intro exps
  induction exps with
  | nil =>
    intro entries h
    exact ⟨rfl, h⟩
  | cons hd rest ih =>
    intro entries h
    obtain ⟨k0, key0⟩ := hd
    by_cases hnow : now < k0.1
    · simp only [purgeLoop, if_pos hnow]
      exact ⟨trivial, h⟩
    · simp only [purgeLoop, if_neg hnow]
      have hkey0 : key0 ≠ k := h (k0, key0) (List.mem_cons_self _ _)
      obtain ⟨ha, hb⟩ := ih (assocRemove entries key0)
        (fun row hrow => h row (List.mem_cons_of_mem _ hrow))
      refine ⟨?_, hb⟩
      rw [ha]
      exact assocGet_assocRemove_other entries key0 k
        (fun hh => hkey0 hh.symm)

theorem purge_keeps {st : State} {k : List Nat} {v2 : List Nat}
    (hv : Db.get st k = some v2)
    (hr : ∀ row ∈ st.expirations, row.2 ≠ k) (t : Nat) :
    Db.get (Shared.purge_expired_keys st t).1 k = some v2 ∧
    ∀ row ∈ (Shared.purge_expired_keys st t).1.expirations, row.2 ≠ k := by
  rw [Shared.purge_expired_keys]
  by_cases hsd : st.shutdown
  · simp only [if_pos hsd]
    exact ⟨hv, hr⟩
  · simp only [if_neg hsd]
    obtain ⟨ha, hb⟩ := purgeLoop_keeps t k st.expirations st.entries hr
    constructor
    · rw [Db.get] at hv ⊢
      dsimp only
      rw [ha]
      exact hv
    · dsimp only
      exact hb

theorem foldl_purge_keeps (k v2 : List Nat) :
    ∀ (times : List Nat) (st : State),
      Db.get st k = some v2 → (∀ row ∈ st.expirations, row.2 ≠ k) →
      Db.get (List.foldl (fun st t => (Shared.purge_expired_keys st t).1)
        st times) k = some v2 := by
  intro times
  induction times with
  | nil =>
    intro st hv hr
    simpa using hv
  | cons t ts ih =>
    intro st hv hr
    rw [List.foldl_cons]
    obtain ⟨ha, hb⟩ := purge_keeps hv hr t
    exact ih _ ha hb

/-- C2: the expiration bookkeeping invariant.  `StrongInv`, the inductive
invariant of reachable store states, holds at `Db::new` and is preserved by
`Db::set`, by the spec-modelled `Db::publish` and `Db::subscribe`
(`Db::get` reads without mutating), and by the reaper's
`Shared::purge_expired_keys`; and it implies the invariant exactly as the
spec words it: every entry with `expires_at` set has exactly one
`(expires_at, id) → key` row, entries without expiry have none, and no row
points at a key absent from `entries`. -/
theorem c2_expiration_invariant :
    (StrongInv initState ∧ ClaimInv initState) ∧
    (∀ s, StrongInv s → ClaimInv s) ∧
    (∀ s now key value expire, StrongInv s →
      StrongInv (Db.set s now key value expire).1) ∧
    (∀ s ch msg, StrongInv s → StrongInv (Db.publish s ch msg).1) ∧
    (∀ s ch, StrongInv s → StrongInv (Db.subscribe s ch)) ∧
    (∀ s now, StrongInv s → StrongInv (Shared.purge_expired_keys s now).1) :=
  ⟨⟨strongInv_init, strongInv_claimInv strongInv_init⟩,
   fun _ h => strongInv_claimInv h,
   fun _ now key value expire h => strongInv_set h now key value expire,
   fun _ ch msg h => strongInv_publish h ch msg,
   fun _ ch h => strongInv_subscribe h ch,
   fun _ now h => strongInv_purge h now⟩

/-- Witness for C2: a concrete `SET` with expiry on the fresh store lands in
a state satisfying both the inductive and the spec-stated invariant. -/
theorem c2_expiration_invariant_witness :
    StrongInv (Db.set initState 5 [107] [118] (some 3)).1 ∧
    ClaimInv (Db.set initState 5 [107] [118] (some 3)).1 :=
  ⟨c2_expiration_invariant.2.2.1 initState 5 [107] [118] (some 3)
     c2_expiration_invariant.1.1,
   c2_expiration_invariant.2.1 _
     (c2_expiration_invariant.2.2.1 initState 5 [107] [118] (some 3)
       c2_expiration_invariant.1.1)⟩

/-- C3: `Set::apply` responds `Null` and leaves the store completely
untouched exactly when `NX` is set and the key is present or `XX` is set
and the key is absent; otherwise it runs `Db::set` with the computed expiry
and responds `Simple("OK")`. -/
theorem c3_set_apply (cmd : SetCmd) (s : State) (now : Nat) :
    (((cmd.options.nx = true ∧ (assocGet s.entries cmd.key).isSome = true) ∨
      (cmd.options.xx = true ∧ (assocGet s.entries cmd.key).isSome = false)) →
      SetCmd.apply cmd s now = (s, Frame.null)) ∧
    (¬ ((cmd.options.nx = true ∧ (assocGet s.entries cmd.key).isSome = true) ∨
        (cmd.options.xx = true ∧ (assocGet s.entries cmd.key).isSome = false)) →
      SetCmd.apply cmd s now =
        ((Db.set s now cmd.key cmd.value cmd.options.expire).1,
         Frame.simple [79, 75])) := by
  have hiff : (cmd.options.nx && (Db.get s cmd.key).isSome
      || cmd.options.xx && (Db.get s cmd.key).isNone) = true ↔
      ((cmd.options.nx = true ∧ (assocGet s.entries cmd.key).isSome = true) ∨
       (cmd.options.xx = true ∧ (assocGet s.entries cmd.key).isSome = false)) := by
    rw [Db.get]
    cases hget : assocGet s.entries cmd.key <;> simp [hget]
  constructor
  · intro hc
    rw [SetCmd.apply, if_pos (hiff.mpr hc)]
  · intro hc
    rw [SetCmd.apply, if_neg (fun hh => hc (hiff.mp hh))]

/-- Witness for C3: on the fresh store, `XX` alone yields `Null` and no
mutation, while `NX` alone performs the set and answers `OK`. -/
theorem c3_set_apply_witness :
    SetCmd.apply ⟨[107], [118], ⟨some 9, false, true⟩⟩ initState 0 =
      (initState, Frame.null) ∧
    SetCmd.apply ⟨[107], [118], ⟨none, true, false⟩⟩ initState 0 =
      ((Db.set initState 0 [107] [118] none).1, Frame.simple [79, 75]) :=
  ⟨(c3_set_apply ⟨[107], [118], ⟨some 9, false, true⟩⟩ initState 0).1
     (Or.inr ⟨rfl, rfl⟩),
   (c3_set_apply ⟨[107], [118], ⟨none, true, false⟩⟩ initState 0).2
     (by decide)⟩

/-- C4: after `set(k, v1, d)` followed by `set(k, v2, None)`, the second
set removed the pending `(when, id)` row of the first, so `get(k)` returns
`v2` and stays `v2` under every later sequence of reaper purges, at any
instants. -/
theorem c4_overwrite_cancels_expiry (s : State) (hinv : StrongInv s)
    (now1 now2 d : Nat) (k v1 v2 : List Nat) :
    Db.get (Db.set (Db.set s now1 k v1 (some d)).1 now2 k v2 none).1 k =
      some v2 ∧
    (∀ row ∈
      (Db.set (Db.set s now1 k v1 (some d)).1 now2 k v2 none).1.expirations,
      row.2 ≠ k) ∧
    (∀ times : List Nat,
      Db.get (List.foldl (fun st t => (Shared.purge_expired_keys st t).1)
        (Db.set (Db.set s now1 k v1 (some d)).1 now2 k v2 none).1 times) k =
      some v2) := by
  have hinv1 : StrongInv (Db.set s now1 k v1 (some d)).1 :=
    strongInv_set hinv now1 k v1 (some d)
  have hinv2 : StrongInv
      (Db.set (Db.set s now1 k v1 (some d)).1 now2 k v2 none).1 :=
    strongInv_set hinv1 now2 k v2 none
  have hget2 : assocGet
      (Db.set (Db.set s now1 k v1 (some d)).1 now2 k v2 none).1.entries k =
      some ⟨(Db.set s now1 k v1 (some d)).1.next_id, v2, none⟩ := by
    rw [db_set_entries_none]
    exact assocGet_assocInsert_self _ _ _
  have hgetv : Db.get
      (Db.set (Db.set s now1 k v1 (some d)).1 now2 k v2 none).1 k =
      some v2 := by
    rw [Db.get, hget2]
    rfl
  have hnorow : ∀ row ∈
      (Db.set (Db.set s now1 k v1 (some d)).1 now2 k v2 none).1.expirations,
      row.2 ≠ k :=
    fun row hrow => (strongInv_claimInv hinv2).2.1 _
      (mem_of_assocGet hget2) rfl row hrow
  exact ⟨hgetv, hnorow,
    fun times => foldl_purge_keeps k v2 times _ hgetv hnorow⟩

/-- Witness for C4: a concrete overwrite without expiry survives two purge
passes after an expiring first set. -/
theorem c4_overwrite_cancels_expiry_witness :
    Db.get (List.foldl (fun st t => (Shared.purge_expired_keys st t).1)
      (Db.set (Db.set initState 0 [107] [118] (some 5)).1 1 [107] [119]
        none).1 [10, 20]) [107] = some [119] :=
  (c4_overwrite_cancels_expiry initState strongInv_init 0 1 5 [107] [118]
    [119]).2.2 [10, 20]

/-! ## Command parsing: three option tokens after SET (`cmd/set.rs`,
`cmd/mod.rs`) -/

/-- C7 (counterexample): for `SET k v EX 5 NX XX`, `Command::from_frame`
does not accept the command: `Set::parse_frames` stops after two option
tokens, leaving `XX` in the iterator, and `parse.finish()` rejects the
trailing element with the `expected end of frame` error, terminating the
connection. -/
theorem c7_counterexample :
    Command.from_frame (.array [.bulk [83, 69, 84], .bulk [107],
      .bulk [118], .bulk [69, 88], .bulk [53], .bulk [78, 88],
      .bulk [88, 88]]) = .error .endExpected := rfl

/-- C7 (amended): for `SET k v EX 5 NX XX` the `SET` parser itself does
read only the first two option tokens (yielding `EX 5` and `NX` and leaving
`XX` unread), but the command is rejected, not accepted:
`Command::from_frame` runs `finish()` on the leftover `XX` and returns the
`protocol error: expected end of frame, but there was more` error. -/
theorem c7_set_three_options (k v : List Nat) (hk : validUtf8 k = true) :
    SetCmd.parse_frames [.bulk k, .bulk v, .bulk [69, 88], .bulk [53],
      .bulk [78, 88], .bulk [88, 88]] =
      .ok (⟨k, v, ⟨some 5000, true, false⟩⟩, [.bulk [88, 88]]) ∧
    Command.from_frame (.array [.bulk [83, 69, 84], .bulk k, .bulk v,
      .bulk [69, 88], .bulk [53], .bulk [78, 88], .bulk [88, 88]]) =
      .error .endExpected := by
  have hf : frameToString (Frame.bulk k) = .ok k := by
    rw [frameToString, if_pos hk]
  have h1 : next_string [Frame.bulk k, Frame.bulk v, Frame.bulk [69, 88],
      Frame.bulk [53], Frame.bulk [78, 88], Frame.bulk [88, 88]] =
      .ok (k, [Frame.bulk v, Frame.bulk [69, 88], Frame.bulk [53],
        Frame.bulk [78, 88], Frame.bulk [88, 88]]) := by
    simp only [next_string]
    rw [hf]
  have hparse : SetCmd.parse_frames [Frame.bulk k, Frame.bulk v,
      Frame.bulk [69, 88], Frame.bulk [53], Frame.bulk [78, 88],
      Frame.bulk [88, 88]] =
      .ok (⟨k, v, ⟨some 5000, true, false⟩⟩, [Frame.bulk [88, 88]]) := by
    rw [SetCmd.parse_frames, h1]
    rfl
  refine ⟨hparse, ?_⟩
  rw [show Command.from_frame (.array [Frame.bulk [83, 69, 84],
    Frame.bulk k, Frame.bulk v, Frame.bulk [69, 88], Frame.bulk [53],
    Frame.bulk [78, 88], Frame.bulk [88, 88]]) =
    withFinish (SetCmd.parse_frames [Frame.bulk k, Frame.bulk v,
      Frame.bulk [69, 88], Frame.bulk [53], Frame.bulk [78, 88],
      Frame.bulk [88, 88]]) Command.set from rfl]
  rw [hparse]
  rfl

/-- Witness for C7 at `k = "k"`, `v = "v"`. -/
theorem c7_set_three_options_witness :
    validUtf8 [107] = true ∧
    (SetCmd.parse_frames [.bulk [107], .bulk [118], .bulk [69, 88],
      .bulk [53], .bulk [78, 88], .bulk [88, 88]] =
      .ok (⟨[107], [118], ⟨some 5000, true, false⟩⟩, [.bulk [88, 88]]) ∧
    Command.from_frame (.array [.bulk [83, 69, 84], .bulk [107],
      .bulk [118], .bulk [69, 88], .bulk [53], .bulk [78, 88],
      .bulk [88, 88]]) = .error .endExpected) :=
  ⟨rfl, c7_set_three_options [107] [118] rfl⟩

/-! ## The read loop of `Connection::read_frame` -/

theorem read_frame_none_iff :
    ∀ (chunks : List (List Nat)) (buffer : List Nat),
      (∀ c ∈ chunks, c ≠ []) →
      (read_frame buffer chunks = .ok none ↔ buffer = [] ∧ chunks = []) := by
  intro chunks
  induction chunks with
  | nil =>
    intro buffer h
    constructor
    · intro hr
      rw [read_frame] at hr
      cases hp : parse_frame buffer with
      | error e =>
        rw [hp] at hr
        simp at hr
      | ok r =>
        obtain ⟨of, b2⟩ := r
        cases of with
        | some f =>
          rw [hp] at hr
          simp at hr
        | none =>
          rw [hp] at hr
          dsimp only at hr
          by_cases hb : buffer.isEmpty
          · exact ⟨List.isEmpty_iff.mp hb, rfl⟩
          · rw [if_neg hb] at hr
            simp at hr
    · rintro ⟨hb, _⟩
      subst hb
      rfl
  | cons c rest ih =>
    intro buffer h
    constructor
    · intro hr
      rw [read_frame] at hr
      cases hp : parse_frame buffer with
      | error e =>
        rw [hp] at hr
        simp at hr
      | ok r =>
        obtain ⟨of, b2⟩ := r
        cases of with
        | some f =>
          rw [hp] at hr
          simp at hr
        | none =>
          rw [hp] at hr
          dsimp only at hr
          have hc : ¬ c.isEmpty = true := by
            intro hh
            exact h c (List.mem_cons_self _ _) (List.isEmpty_iff.mp hh)
          rw [if_neg hc] at hr
          obtain ⟨hb, _⟩ := (ih (buffer ++ c)
            (fun c2 hc2 => h c2 (List.mem_cons_of_mem _ hc2))).mp hr
          exact absurd (List.append_eq_nil.mp hb).2
            (h c (List.mem_cons_self _ _))
    · rintro ⟨_, hcontra⟩
      cases hcontra

theorem parse_frame_error_shape {buffer : List Nat} {e : ConnErr}
    (h : parse_frame buffer = .error e) : ¬ e = ConnErr.reset := by
  rw [parse_frame] at h
  cases hc : checkTop buffer with
  | ok len =>
    rw [hc] at h
    cases hq : parseTop buffer with
    | ok r =>
      obtain ⟨fr, p⟩ := r
      rw [hq] at h
      simp at h
    | error fe =>
      rw [hq] at h
      dsimp only at h
      simp only [Except.error.injEq] at h
      subst h
      simp
  | error fe =>
    rw [hc] at h
    cases fe with
    | incomplete =>
      dsimp only at h
      simp at h
    | invalid msg =>
      dsimp only at h
      simp only [Except.error.injEq] at h
      subst h
      simp
    | panicked =>
      dsimp only at h
      simp only [Except.error.injEq] at h
      subst h
      simp
    | fuelOut =>
      dsimp only at h
      simp only [Except.error.injEq] at h
      subst h
      simp

theorem read_frame_reset_iff :
    ∀ (chunks : List (List Nat)) (buffer : List Nat),
      (∀ c ∈ chunks, c ≠ []) →
      (read_frame buffer chunks = .error .reset ↔
        allIncomplete buffer chunks = true ∧ buffer ++ chunks.flatten ≠ []) := by
  intro chunks
  induction chunks with
  | nil =>
    intro buffer h
    rw [read_frame, allIncomplete, parseNone]
    cases hp : parse_frame buffer with
    | error e => simp [parse_frame_error_shape hp]
    | ok r =>
      obtain ⟨of, b2⟩ := r
      cases of with
      | some f => simp
      | none =>
        dsimp only
        by_cases hb : buffer.isEmpty
        · rw [if_pos hb]
          have hbe : buffer = [] := List.isEmpty_iff.mp hb
          subst hbe
          simp
        · rw [if_neg hb]
          have hbne : ¬ buffer = [] := fun hh => hb (by rw [hh]; rfl)
          simp [hbne]
  | cons c rest ih =>
    intro buffer h
    rw [read_frame, allIncomplete, parseNone]
    cases hp : parse_frame buffer with
    | error e => simp [parse_frame_error_shape hp]
    | ok r =>
      obtain ⟨of, b2⟩ := r
      cases of with
      | some f => simp
      | none =>
        dsimp only
        have hc : ¬ c.isEmpty = true := by
          intro hh
          exact h c (List.mem_cons_self _ _) (List.isEmpty_iff.mp hh)
        rw [if_neg hc]
        rw [ih (buffer ++ c) (fun c2 hc2 => h c2 (List.mem_cons_of_mem _ hc2))]
        simp [List.append_assoc, List.flatten_cons]

/-- C8: `read_frame` returns the next frame as soon as the buffer holds a
complete one; returns clean end of stream (`None`) exactly when the socket
closes while the accumulated read buffer is empty — with every socket read
delivering at least one byte, that means an empty initial buffer and no
reads at all; and returns the `connection reset by peer` error exactly when
every intermediate buffer held only an incomplete frame and the bytes
accumulated at close are nonempty (a nonempty partial frame). -/
theorem c8_read_frame (buffer : List Nat) (chunks : List (List Nat))
    (hch : ∀ c ∈ chunks, c ≠ []) :
    (∀ f rest, parse_frame buffer = .ok (some f, rest) →
      read_frame buffer chunks = .ok (some f)) ∧
    (read_frame buffer chunks = .ok none ↔ buffer = [] ∧ chunks = []) ∧
    (read_frame buffer chunks = .error .reset ↔
      allIncomplete buffer chunks = true ∧ buffer ++ chunks.flatten ≠ []) := by
  refine ⟨?_, read_frame_none_iff chunks buffer hch,
    read_frame_reset_iff chunks buffer hch⟩
  intro f rest h
  cases chunks with
  | nil => rw [read_frame, h]
  | cons c cs => rw [read_frame, h]

/-- Witness for C8: a buffer holding the complete frame `"+OK\r\n"` is
returned as `Simple("OK")` without any further read. -/
theorem c8_read_frame_witness :
    read_frame [43, 79, 75, 13, 10] [] = .ok (some (.simple [79, 75])) :=
  (c8_read_frame [43, 79, 75, 13, 10] [] (by simp)).1 (.simple [79, 75]) []
    rfl

/-- C10: the push-message path of `Subscriber::next_message` is
byte-faithful exactly for UTF-8 payloads: a
`["message", channel, Bulk(payload)]` push with valid-UTF-8 payload yields
`content` equal to the payload bytes (for any channel frame), while the
non-UTF-8 payload `[0xff]` comes back as its `Debug` rendering
`b"\xff"` — through the `Display` fallback — which differs from the
payload bytes. -/
theorem c10_subscriber_content (chf : Frame) (payload : List Nat)
    (h : validUtf8 payload = true) :
    next_message (.array [.simple [109, 101, 115, 115, 97, 103, 101], chf,
      .bulk payload]) = .ok ⟨displayF chf, payload⟩ ∧
    validUtf8 [255] = false ∧
    next_message (.array [.simple [109, 101, 115, 115, 97, 103, 101], chf,
      .bulk [255]]) = .ok ⟨displayF chf, debugBytes [255]⟩ ∧
    debugBytes [255] ≠ [255] := by
  refine ⟨?_, rfl, ?_, by decide⟩
  · rw [show next_message (.array [.simple [109, 101, 115, 115, 97, 103,
      101], chf, .bulk payload]) =
      .ok ⟨displayF chf, displayF (.bulk payload)⟩ from rfl]
    rw [show displayF (.bulk payload) =
      (if validUtf8 payload then payload else debugBytes payload) from rfl]
    rw [if_pos h]
  · rfl

/-- Witness for C10 at channel `Simple("c")` and payload `"hi"`. -/
theorem c10_subscriber_content_witness :
    validUtf8 [104, 105] = true ∧
    next_message (.array [.simple [109, 101, 115, 115, 97, 103, 101],
      .simple [99], .bulk [104, 105]]) =
      .ok ⟨[99], [104, 105]⟩ :=
  ⟨rfl, (c10_subscriber_content (.simple [99]) [104, 105] rfl).1⟩

end Indb
